import Mathlib

/-!
Shallow embedding of the safe-memory-reclamation (SMR) engine of the
rs-lockfree repository: `src/hazard_pointer.rs` (per-thread store) and
`src/hazard_epoch.rs` (the engine).  The embedding is sequential: each
operation is a pure function on the engine state; parameters that the Rust
code obtains from the environment (the calling thread's id, the current
time in microseconds) are passed explicitly.  Machine integers are modelled
as `Nat` with explicit reduction modulo `2 ^ 64` (resp. `2 ^ 32`) where the
code can overflow.  Raw pointers into retired-node lists are modelled as
Lean lists; destructor invocation is modelled by returning the list of
destroyed nodes.  Log output (the `warn!` calls relevant to the claims) is
modelled by a list of log events.
-/

/-- Compile-time bound on the number of participating threads
(`MAX_THREAD_COUNT` in `hazard_epoch.rs`, default configuration). -/
def MAX_THREAD_COUNT : Nat := 16

/-- The value `std::u64::MAX`, the sentinel meaning no active acquisition. -/
def U64_MAX : Nat := 2 ^ 64 - 1

/-- Modulus of 64-bit unsigned arithmetic. -/
def U64_MOD : Nat := 2 ^ 64

/-- Modulus of 32-bit unsigned arithmetic (the `seq` field is `u32`). -/
def U32_MOD : Nat := 2 ^ 32

/-- Status codes of `src/error.rs`. -/
inductive Status where
  | Success
  | Busy
  | ThreadNumOverflow
  | InvalidParam
deriving DecidableEq, Repr

/-- A retired node (`BaseHazardNode` in `hazard_pointer.rs`): `id` stands for
the identity of the underlying heap object (the trait-object pointer), and
`version` is the engine epoch stamped at retire time. -/
structure Node where
  id : Nat
  version : Nat
deriving DecidableEq, Repr

/-- The decoded form of the 64-bit `VersionHandle` of `hazard_pointer.rs`:
`\x7b tid: u16, high_bits: u16, seq: u32 \x7d`. -/
structure VersionHandle where
  tid : Nat
  high_bits : Nat
  seq : Nat
deriving DecidableEq, Repr

/-- Log events: the `warn!` in `ThreadStore::release` for an invalid handle. -/
inductive LogEvent where
  | invalidHandle (seq : Nat) (tid : Nat)
deriving DecidableEq, Repr

/-- Per-thread store (`ThreadStore` in `hazard_pointer.rs`).  The
`curr_seq_version` pair is flattened into the `seq` and `curr_version`
fields; the intrusive `next` pointer of the active-thread list is modelled
by the engine's `thread_list`. -/
structure ThreadStore where
  enabled : Bool
  tid : Nat
  last_retire_version : Nat
  seq : Nat
  curr_version : Nat
  hazard_waiting_list : List Node
  hazard_waiting_count : Int
deriving DecidableEq, Repr

/-- `ThreadStore::new`: disabled, no acquisition (sentinel), empty list. -/
def ThreadStore.new : ThreadStore :=
  { enabled := false
    tid := 0
    last_retire_version := 0
    seq := 0
    curr_version := U64_MAX
    hazard_waiting_list := []
    hazard_waiting_count := 0 }

/-- `ThreadStore::version`, the accessor used by the min-version scan. -/
def ThreadStore.version (ts : ThreadStore) : Nat :=
  ts.curr_version

/-- `ThreadStore::acquire`: if a version is already held (not the sentinel)
fail with Busy leaving the out-handle as the caller initialised it;
otherwise publish `version` and fill the handle with `(tid, 0, seq)`. -/
def ThreadStore.acquire (ts : ThreadStore) (version : Nat) (handle : VersionHandle) :
    Status × ThreadStore × VersionHandle :=
  if ts.curr_version ≠ U64_MAX then
    (Status.Busy, ts, handle)
  else
    (Status.Success, { ts with curr_version := version },
      { tid := ts.tid, high_bits := 0, seq := ts.seq })

/-- `ThreadStore::release`: the code warns and does nothing only when the
handle's tid AND seq both differ from the slot's; otherwise it stores the
sentinel into `curr_version` and increments `seq` (a `u32`). -/
def ThreadStore.release (ts : ThreadStore) (handle : VersionHandle) :
    ThreadStore × List LogEvent :=
  if ts.tid ≠ handle.tid ∧ ts.seq ≠ handle.seq then
    (ts, [LogEvent.invalidHandle handle.seq handle.tid])
  else
    ({ ts with curr_version := U64_MAX, seq := (ts.seq + 1) % U32_MOD }, [])

/-- `ThreadStore::inner_add_nodes`: push a sub-list (head, tail, count) onto
the head of the waiting list and add `count` to the waiting count; a no-op
when `count = 0`. -/
def ThreadStore.inner_add_nodes (ts : ThreadStore) (nodes : List Node) : ThreadStore :=
  if 0 < nodes.length then
    { ts with
        hazard_waiting_list := nodes ++ ts.hazard_waiting_list
        hazard_waiting_count := ts.hazard_waiting_count + nodes.length }
  else ts

/-- `ThreadStore::add_node`: stamp the node with `version` and push it as a
one-element sub-list; always returns Success. -/
def ThreadStore.add_node (ts : ThreadStore) (version : Nat) (node : Node) :
    Status × ThreadStore :=
  (Status.Success, ts.inner_add_nodes [{ node with version := version }])

/-- The partition loop of `ThreadStore::retire`: walk the taken list front to
back; a node with `version ≤ v` is unlinked and prepended onto the reclaim
accumulator (so the reclaim list ends up in reverse encounter order), other
nodes stay linked in place.  Returns (survivors, reclaim list). -/
def hazardPartition (v : Nat) : List Node → List Node → List Node × List Node
  | [], list_retire => ([], list_retire)
  | n :: rest, list_retire =>
    if n.version ≤ v then
      hazardPartition v rest (n :: list_retire)
    else
      let (s, r) := hazardPartition v rest list_retire
      (n :: s, r)

/-- `ThreadStore::retire` with a receiver distinct from `ts` (the engine
calls this shape when flushing the other slots).  Atomically takes the whole
waiting list, partitions it, donates survivors to `recv`, subtracts the
total taken from the own count, destroys the reclaim list and returns it
together with its count. -/
def ThreadStore.retire (ts : ThreadStore) (version : Nat) (recv : ThreadStore) :
    ThreadStore × ThreadStore × List Node × Int :=
  if ts.last_retire_version = version then
    (ts, recv, [], 0)
  else
    let (movers, list_retire) := hazardPartition version ts.hazard_waiting_list []
    let recv1 := recv.inner_add_nodes movers
    let ts1 : ThreadStore :=
      { ts with
          last_retire_version := version
          hazard_waiting_list := []
          hazard_waiting_count :=
            ts.hazard_waiting_count - (movers.length + list_retire.length) }
    (ts1, recv1, list_retire, (list_retire.length : Int))

/-- `ThreadStore::retire` in the self-receiving shape (`node_receiver`
aliases `self`): survivors are pushed back onto the just-emptied own list. -/
def ThreadStore.retireSelf (ts : ThreadStore) (version : Nat) :
    ThreadStore × List Node × Int :=
  if ts.last_retire_version = version then
    (ts, [], 0)
  else
    let (movers, list_retire) := hazardPartition version ts.hazard_waiting_list []
    let ts1 : ThreadStore :=
      { ts with
          last_retire_version := version
          hazard_waiting_list := [] }
    let ts2 := ts1.inner_add_nodes movers
    let ts3 : ThreadStore :=
      { ts2 with
          hazard_waiting_count :=
            ts2.hazard_waiting_count - (movers.length + list_retire.length) }
    (ts3, list_retire, (list_retire.length : Int))

/-- Engine state (`HazardEpoch` in `hazard_epoch.rs`).  The `threads` array
is a list of `MAX_THREAD_COUNT` stores indexed by tid; `thread_list` models
the intrusive active-thread list as the list of registered tids in LIFO
order; the `curr_min_version_info` pair is flattened. -/
structure HazardEpoch where
  thread_waiting_threshold : Int
  min_version_cache_time_us : Int
  version : Nat
  threads : List ThreadStore
  thread_list : List Nat
  thread_count : Int
  hazard_waiting_count : Int
  curr_min_version : Nat
  curr_min_version_timestamp : Int
deriving DecidableEq, Repr

/-- `HazardEpoch::new_in_stack`. -/
def HazardEpoch.new_in_stack (thread_waiting_threshold min_version_cache_time_us : Int) :
    HazardEpoch :=
  { thread_waiting_threshold
    min_version_cache_time_us
    version := 0
    threads := List.replicate MAX_THREAD_COUNT ThreadStore.new
    thread_list := []
    thread_count := 0
    hazard_waiting_count := 0
    curr_min_version := 0
    curr_min_version_timestamp := 0 }

/-- The slot of thread `t` (`&self.threads[t]`). -/
def HazardEpoch.slot (e : HazardEpoch) (t : Nat) : ThreadStore :=
  e.threads.getD t ThreadStore.new

/-- Store back the slot of thread `t`. -/
def HazardEpoch.setSlot (e : HazardEpoch) (t : Nat) (ts : ThreadStore) : HazardEpoch :=
  { e with threads := e.threads.set t ts }

/-- `HazardEpoch::get_thread_store` for calling thread `tn`: overflow check,
then one-time registration (enable the slot and push it onto the
active-thread list). -/
def HazardEpoch.get_thread_store (e : HazardEpoch) (tn : Nat) : Status × HazardEpoch :=
  if MAX_THREAD_COUNT ≤ tn then
    (Status.ThreadNumOverflow, e)
  else if (e.slot tn).enabled then
    (Status.Success, e)
  else
    (Status.Success,
      { e.setSlot tn { e.slot tn with enabled := true, tid := tn } with
          thread_list := tn :: e.thread_list
          thread_count := e.thread_count + 1 })

/-- The min-version scan loop: start from the global version and take the
minimum with every listed slot's current version. -/
def minOverList (e : HazardEpoch) : Nat :=
  e.thread_list.foldl (fun m t => min m (e.slot t).version) e.version

/-- `HazardEpoch::get_min_version`: without `force_flush`, a nonzero cached
value younger than `min_version_cache_time_us` is returned as is; otherwise
the scan runs and its result is stored into the cache with the current
time. -/
def HazardEpoch.get_min_version (e : HazardEpoch) (force_flush : Bool) (now : Int) :
    Nat × HazardEpoch :=
  if ¬force_flush ∧ e.curr_min_version ≠ 0 ∧
      now < e.curr_min_version_timestamp + e.min_version_cache_time_us then
    (e.curr_min_version, e)
  else
    let m := minOverList e
    (m, { e with curr_min_version := m, curr_min_version_timestamp := now })

/-- `HazardEpoch::add_node` called from thread `tid` with `node` (`none`
models a null pointer): null check, slot lookup, then stamp the node with
the incremented global version (64-bit wrapping), push it and bump the
aggregate waiting count.  No scan or flush is run here. -/
def HazardEpoch.add_node (e : HazardEpoch) (tid : Nat) (node : Option Node) :
    Status × HazardEpoch :=
  match node with
  | none => (Status.InvalidParam, e)
  | some nd =>
    let (ret, e1) := e.get_thread_store tid
    if ret ≠ Status.Success then
      (ret, e1)
    else
      let new_version := (e1.version + 1) % U64_MOD
      let e2 : HazardEpoch := { e1 with version := new_version }
      let (ret2, ts1) := (e2.slot tid).add_node new_version nd
      let e3 := e2.setSlot tid ts1
      if ret2 ≠ Status.Success then
        (ret2, e3)
      else
        (Status.Success,
          { e3 with hazard_waiting_count := e3.hazard_waiting_count + 1 })

/-- The loop of `HazardEpoch::retire` over the snapshot of the active-thread
list: every slot other than the caller's is scanned at `min_version` with
the caller's slot receiving the survivors; reclaim counts are subtracted
from the aggregate, destroyed nodes are accumulated. -/
def flushOthers (tid : Nat) (min_version : Nat) :
    List Nat → HazardEpoch × List Node → HazardEpoch × List Node
  | [], acc => acc
  | t :: rest, (e, destroyed) =>
    if t = tid then
      flushOthers tid min_version rest (e, destroyed)
    else
      let (ts1, recv1, d, c) := (e.slot t).retire min_version (e.slot tid)
      let e1 := (e.setSlot t ts1).setSlot tid recv1
      flushOthers tid min_version rest
        ({ e1 with hazard_waiting_count := e1.hazard_waiting_count - c },
          destroyed ++ d)

/-- `HazardEpoch::retire` (the global flush) called from thread `tid`:
obtain the slot, compute a forced min version, scan the own slot first and
then every other listed slot, donating survivors to the caller's slot. -/
def HazardEpoch.retire (e : HazardEpoch) (tid : Nat) (now : Int) :
    HazardEpoch × List Node :=
  let (ret, e1) := e.get_thread_store tid
  if ret ≠ Status.Success then
    (e1, [])
  else
    let (min_version, e2) := e1.get_min_version true now
    let (ts1, d0, c0) := (e2.slot tid).retireSelf min_version
    let e3 := e2.setSlot tid ts1
    let e4 : HazardEpoch :=
      { e3 with hazard_waiting_count := e3.hazard_waiting_count - c0 }
    flushOthers tid min_version e4.thread_list (e4, d0)

/-- `HazardEpoch::acquire` called from thread `tid`.  In the sequential
embedding the global version cannot move between the two loads, so the
retry loop of the code runs its body exactly once; on Busy the out-handle
keeps its caller-initialised zero value. -/
def HazardEpoch.acquire (e : HazardEpoch) (tid : Nat) :
    Status × HazardEpoch × VersionHandle :=
  let (ret, e1) := e.get_thread_store tid
  if ret ≠ Status.Success then
    (ret, e1, { tid := 0, high_bits := 0, seq := 0 })
  else
    let (ret2, ts1, h) :=
      (e1.slot tid).acquire e1.version { tid := 0, high_bits := 0, seq := 0 }
    (ret2, e1.setSlot tid ts1, h)

/-- `HazardEpoch::release` of a decoded handle, called from thread `ctid`
(the code reaches the global-flush branch through `self.retire()`, which
looks up the calling thread).  A handle whose tid is out of range is
ignored wholesale.  Otherwise the slot releases, then either a local scan
(own count above the threshold) or a global flush (aggregate above
`thread_count * threshold`) runs. -/
def HazardEpoch.release (e : HazardEpoch) (handle : VersionHandle) (ctid : Nat) (now : Int) :
    HazardEpoch × List Node × List LogEvent :=
  if handle.tid < MAX_THREAD_COUNT then
    let (ts1, logs) := (e.slot handle.tid).release handle
    let e1 := e.setSlot handle.tid ts1
    if e1.thread_waiting_threshold < ts1.hazard_waiting_count then
      let (min_version, e2) := e1.get_min_version false now
      let (ts2, d, c) := (e2.slot handle.tid).retireSelf min_version
      let e3 := e2.setSlot handle.tid ts2
      ({ e3 with hazard_waiting_count := e3.hazard_waiting_count - c }, d, logs)
    else if e1.thread_count * e1.thread_waiting_threshold < e1.hazard_waiting_count then
      let (e2, d) := e1.retire ctid now
      (e2, d, logs)
    else
      (e1, [], logs)
  else
    (e, [], [])

/-- The threshold dispatch that sections 4.3.3 and 4.3.7 of the spec
describe: a local scan of slot `tid` when its waiting count exceeds the
per-thread threshold, else a global flush (from thread `ctid`) when the
aggregate exceeds `thread_count * threshold`.  This is the spec-side
definition used to compare the claimed placement of the dispatch against
the code. -/
def retireDispatch (e : HazardEpoch) (tid ctid : Nat) (now : Int) :
    HazardEpoch × List Node :=
  if e.thread_waiting_threshold < (e.slot tid).hazard_waiting_count then
    let (min_version, e2) := e.get_min_version false now
    let (ts2, d, c) := (e2.slot tid).retireSelf min_version
    let e3 := e2.setSlot tid ts2
    ({ e3 with hazard_waiting_count := e3.hazard_waiting_count - c }, d)
  else if e.thread_count * e.thread_waiting_threshold < e.hazard_waiting_count then
    e.retire ctid now
  else
    (e, [])

/-- The behaviour claim C2 ascribes to a successful `add_node`: push the
node and bump the aggregate (which the code does), then run the threshold
dispatch (which the code does not).  Spec-side definition for the
comparison. -/
def add_node_then_dispatch (e : HazardEpoch) (tid : Nat) (node : Option Node) (now : Int) :
    Status × HazardEpoch × List Node :=
  let (st, e1) := e.add_node tid node
  if st = Status.Success then
    let (e2, d) := retireDispatch e1 tid tid now
    (st, e2, d)
  else
    (st, e1, [])

/-- Retire a batch of fresh nodes one by one from thread `tid`. -/
def addNodes (e : HazardEpoch) (tid : Nat) (ids : List Nat) : HazardEpoch :=
  ids.foldl (fun acc i => (HazardEpoch.add_node acc tid (some { id := i, version := 0 })).2) e

/-- A fresh engine with the default parameters (threshold 64, cache ttl
200000 microseconds). -/
def engine0 : HazardEpoch := HazardEpoch.new_in_stack 64 200000

/-- Scenario of claim C3 (the `test_base` unit test): thread 0 acquires on
the fresh default engine. -/
def scenAcq : Status × HazardEpoch × VersionHandle := engine0.acquire 0

/-- Engine after the acquisition of `scenAcq`. -/
def scenE1 : HazardEpoch := scenAcq.2.1

/-- The handle held by thread 0 in the scenario. -/
def scenH : VersionHandle := scenAcq.2.2

/-- Engine after thread 0 retires 64 nodes while holding the handle. -/
def scenE2 : HazardEpoch := addNodes scenE1 0 (List.range 64)

/-- First global flush, run while the handle is still held. -/
def scenFlush1 : HazardEpoch × List Node := scenE2.retire 0 0

/-- Release of the held handle (by thread 0) after the first flush. -/
def scenRel : HazardEpoch × List Node × List LogEvent := scenFlush1.1.release scenH 0 0

/-- Second global flush, run after the release. -/
def scenFlush2 : HazardEpoch × List Node := scenRel.1.retire 0 0

/-- Failing input of claim C1: an enabled slot of thread 3 holding version
42 at seq 5. -/
def tsC1 : ThreadStore :=
  { ThreadStore.new with enabled := true, tid := 3, seq := 5, curr_version := 42 }

/-- Failing input of claim C1: a handle whose tid matches the slot but
whose seq (9) differs from the slot's seq (5). -/
def hC1 : VersionHandle := { tid := 3, high_bits := 0, seq := 9 }

/-- Counterexample engine for claim C2: per-thread threshold 0, so a single
retired node already exceeds it. -/
def eC2 : HazardEpoch := HazardEpoch.new_in_stack 0 200000

/-- The single node retired in the C2 counterexample. -/
def ndC2 : Node := { id := 7, version := 0 }

/-- Concrete slot for the C4 witness: three retired nodes with versions 9,
2, 5 (list head first) and matching count. -/
def tsW4 : ThreadStore :=
  { ThreadStore.new with
      enabled := true
      tid := 1
      hazard_waiting_list :=
        [{ id := 0, version := 9 }, { id := 1, version := 2 }, { id := 2, version := 5 }]
      hazard_waiting_count := 3 }

/-- Concrete receiver slot for the C4 witness, holding one older node. -/
def recvW4 : ThreadStore :=
  { ThreadStore.new with
      enabled := true
      tid := 2
      hazard_waiting_list := [{ id := 9, version := 1 }]
      hazard_waiting_count := 1 }

/-- Concrete engine for the C5 witness: a warm cache (value 7, stamped at
time 0, ttl 100). -/
def eW5 : HazardEpoch :=
  { HazardEpoch.new_in_stack 64 100 with
      version := 11
      curr_min_version := 7
      curr_min_version_timestamp := 0 }

/-- The number of nodes retired but not yet destroyed across a slot array:
the total of the per-slot retired-list lengths. -/
def pendingOf (l : List ThreadStore) : Nat :=
  (l.map fun ts => ts.hazard_waiting_list.length).sum

/-- Accounting well-formedness of a live engine: a full slot array, listed
tids in range, every slot's `hazard_waiting_count` equal to the length of
its retired list, and the engine's aggregate `hazard_waiting_count` equal
to the total of the per-slot list lengths, i.e. the number of nodes retired
but not yet destroyed. -/
def WF (e : HazardEpoch) : Prop :=
  e.threads.length = MAX_THREAD_COUNT
  ∧ (∀ t ∈ e.thread_list, t < MAX_THREAD_COUNT)
  ∧ (∀ ts ∈ e.threads, ts.hazard_waiting_count = (ts.hazard_waiting_list.length : Int))
  ∧ e.hazard_waiting_count = (pendingOf e.threads : Int)

/-! List index helper lemmas for the slot array. -/

lemma listGetD_set_ne {α : Type} (l : List α) (i j : Nat) (x d : α) (h : i ≠ j) :
    (l.set j x).getD i d = l.getD i d := by
  induction l generalizing i j with
  | nil => rfl
  | cons a as ih =>
    cases j with
    | zero =>
      cases i with
      | zero => exact absurd rfl h
      | succ i => rfl
    | succ j =>
      cases i with
      | zero => rfl
      | succ i => exact ih i j (fun hc => h (by omega))

lemma listGetD_set_self {α : Type} (l : List α) (i : Nat) (x d : α) (h : i < l.length) :
    (l.set i x).getD i d = x := by
  induction l generalizing i with
  | nil => simp at h
  | cons a as ih =>
    cases i with
    | zero => rfl
    | succ i => exact ih i (by simpa using h)

lemma listSet_getD_self {α : Type} (l : List α) (i : Nat) (d : α) (h : i < l.length) :
    l.set i (l.getD i d) = l := by
  induction l generalizing i with
  | nil => rfl
  | cons a as ih =>
    cases i with
    | zero => rfl
    | succ i => simpa using ih i (by simpa using h)

lemma listGetD_mem {α : Type} (l : List α) (i : Nat) (d : α) (h : i < l.length) :
    l.getD i d ∈ l := by
  induction l generalizing i with
  | nil => simp at h
  | cons a as ih =>
    cases i with
    | zero => simp [List.getD]
    | succ i => exact List.mem_cons_of_mem a (ih i (by simpa using h))

lemma listMem_of_mem_set {α : Type} (l : List α) (i : Nat) (x a : α) (h : a ∈ l.set i x) :
    a ∈ l ∨ a = x := by
  induction l generalizing i with
  | nil => simp at h
  | cons b bs ih =>
    cases i with
    | zero =>
      rcases List.mem_cons.mp h with h | h
      · exact Or.inr h
      · exact Or.inl (List.mem_cons_of_mem b h)
    | succ i =>
      rcases List.mem_cons.mp h with h | h
      · exact Or.inl (by simp [h])
      · rcases ih i h with h | h
        · exact Or.inl (List.mem_cons_of_mem b h)
        · exact Or.inr h

lemma listSum_map_set {α : Type} (f : α → Nat) (l : List α) (i : Nat) (x d : α)
    (h : i < l.length) :
    ((l.set i x).map f).sum + f (l.getD i d) = (l.map f).sum + f x := by
  induction l generalizing i with
  | nil => simp at h
  | cons a as ih =>
    cases i with
    | zero => simp [List.getD]; omega
    | succ i =>
      have := ih i (by simpa using h)
      simp only [List.set, List.map_cons, List.sum_cons, List.getD_cons_succ]
      omega

/-! Characterisation of the partition loop of `ThreadStore::retire`. -/

lemma hazardPartition_spec (v : Nat) (l acc : List Node) :
    hazardPartition v l acc =
      (l.filter (fun n => decide (v < n.version)),
        (l.filter (fun n => decide (n.version ≤ v))).reverse ++ acc) := by
  induction l generalizing acc with
  | nil => simp [hazardPartition]
  | cons n rest ih =>
    by_cases h : n.version ≤ v
    · have hlt : ¬ v < n.version := by omega
      simp [hazardPartition, h, hlt, List.filter_cons, ih]
    · have hlt : v < n.version := by omega
      simp [hazardPartition, h, hlt, List.filter_cons, ih]

lemma hazardPartition_length (v : Nat) (l acc : List Node) :
    (hazardPartition v l acc).1.length + (hazardPartition v l acc).2.length =
      l.length + acc.length := by
  induction l generalizing acc with
  | nil => simp [hazardPartition]
  | cons n rest ih =>
    by_cases h : n.version ≤ v
    · have := ih (n :: acc)
      simp only [hazardPartition, if_pos h] at this ⊢
      simp at this ⊢
      omega
    · have := ih acc
      simp only [hazardPartition, if_neg h]
      simp at this ⊢
      omega

lemma hazardPartition_retire_le (v : Nat) (l : List Node) (n : Node)
    (h : n ∈ (hazardPartition v l []).2) : n.version ≤ v := by
  rw [hazardPartition_spec] at h
  simp only [List.append_nil, List.mem_reverse, List.mem_filter] at h
  exact of_decide_eq_true h.2

/-! Unfolding lemmas for the per-thread store operations. -/

lemma inner_add_nodes_eq (ts : ThreadStore) (nodes : List Node) :
    ts.inner_add_nodes nodes =
      { ts with
          hazard_waiting_list := nodes ++ ts.hazard_waiting_list
          hazard_waiting_count := ts.hazard_waiting_count + nodes.length } := by
  unfold ThreadStore.inner_add_nodes
  by_cases h : 0 < nodes.length
  · simp [h]
  · have hn : nodes = [] := List.length_eq_zero.mp (by omega)
    subst hn
    simp

/-- Full characterisation of `ThreadStore::retire` with a distinct receiver
when the version differs from `last_retire_version`. -/
lemma retire_eq (ts recv : ThreadStore) (v : Nat) (h : ts.last_retire_version ≠ v) :
    ts.retire v recv =
      ({ ts with
          last_retire_version := v
          hazard_waiting_list := []
          hazard_waiting_count :=
            ts.hazard_waiting_count - ts.hazard_waiting_list.length },
        { recv with
            hazard_waiting_list :=
              ts.hazard_waiting_list.filter (fun n => decide (v < n.version)) ++
                recv.hazard_waiting_list
            hazard_waiting_count :=
              recv.hazard_waiting_count +
                (ts.hazard_waiting_list.filter (fun n => decide (v < n.version))).length },
        (ts.hazard_waiting_list.filter (fun n => decide (n.version ≤ v))).reverse,
        (((ts.hazard_waiting_list.filter (fun n => decide (n.version ≤ v))).reverse.length : Nat) :
          Int)) := by
  have hlen := hazardPartition_length v ts.hazard_waiting_list []
  unfold ThreadStore.retire
  rw [if_neg h]
  rw [hazardPartition_spec] at hlen ⊢
  simp only [List.append_nil, List.length_nil, Nat.add_zero, List.length_reverse] at hlen ⊢
  rw [inner_add_nodes_eq]
  refine Prod.ext ?_ (Prod.ext rfl (Prod.ext rfl ?_))
  · simp only [ThreadStore.mk.injEq, and_true, true_and]
    omega
  · simp

/-- Characterisation of the self-receiving `ThreadStore::retire` (local
scan) when the version differs from `last_retire_version`: the survivors
stay on the own list in order, the count drops by the reclaim count. -/
lemma retireSelf_eq (ts : ThreadStore) (v : Nat) (h : ts.last_retire_version ≠ v) :
    ts.retireSelf v =
      ({ ts with
          last_retire_version := v
          hazard_waiting_list :=
            ts.hazard_waiting_list.filter (fun n => decide (v < n.version))
          hazard_waiting_count :=
            ts.hazard_waiting_count -
              (ts.hazard_waiting_list.filter (fun n => decide (n.version ≤ v))).length },
        (ts.hazard_waiting_list.filter (fun n => decide (n.version ≤ v))).reverse,
        (((ts.hazard_waiting_list.filter (fun n => decide (n.version ≤ v))).length : Nat) :
          Int)) := by
  have hlen := hazardPartition_length v ts.hazard_waiting_list []
  unfold ThreadStore.retireSelf
  rw [if_neg h]
  rw [hazardPartition_spec] at hlen ⊢
  simp only [List.append_nil, List.length_nil, Nat.add_zero, List.length_reverse] at hlen ⊢
  rw [inner_add_nodes_eq]
  simp only [List.append_nil]
  refine Prod.ext ?_ (Prod.ext rfl ?_)
  · simp only [ThreadStore.mk.injEq, and_true, true_and]
    omega
  · simp

/-! Lemmas about the folded minimum of the min-version scan. -/

lemma foldl_min_le_init {α : Type} (f : α → Nat) (l : List α) (a : Nat) :
    l.foldl (fun m x => min m (f x)) a ≤ a := by
  induction l generalizing a with
  | nil => exact Nat.le_refl a
  | cons t rest ih =>
    exact le_trans (ih (min a (f t))) (Nat.min_le_left _ _)

lemma foldl_min_le_mem {α : Type} (f : α → Nat) (l : List α) (a : Nat) (t : α)
    (h : t ∈ l) :
    l.foldl (fun m x => min m (f x)) a ≤ f t := by
  induction l generalizing a with
  | nil => cases h
  | cons b rest ih =>
    rcases List.mem_cons.mp h with hb | hb
    · subst hb
      exact le_trans (foldl_min_le_init f rest _) (Nat.min_le_right _ _)
    · exact ih _ hb


lemma foldl_min_filter_sentinel {α : Type} (f : α → Nat) (l : List α) (a : Nat)
    (ha : a ≤ U64_MAX) :
    l.foldl (fun m x => min m (f x)) a =
      (l.filter (fun x => decide (f x ≠ U64_MAX))).foldl (fun m x => min m (f x)) a := by
  induction l generalizing a with
  | nil => rfl
  | cons t rest ih =>
    by_cases h : f t = U64_MAX
    · have hmin : min a (f t) = a := min_eq_left (h ▸ ha)
      rw [List.foldl_cons, hmin, List.filter_cons, if_neg (by simp [h])]
      exact ih a ha
    · have hmin : min a (f t) ≤ U64_MAX := le_trans (Nat.min_le_left _ _) ha
      rw [List.foldl_cons, List.filter_cons, if_pos (by simp [h]), List.foldl_cons]
      exact ih (min a (f t)) hmin

lemma minOverList_le_slot (e : HazardEpoch) (t : Nat) (h : t ∈ e.thread_list) :
    minOverList e ≤ (e.slot t).version :=
  foldl_min_le_mem (fun t => (e.slot t).version) e.thread_list e.version t h

lemma listGetD_of_le {α : Type} (l : List α) (i : Nat) (d : α) (h : l.length ≤ i) :
    l.getD i d = d := by
  induction l generalizing i with
  | nil => rfl
  | cons a as ih =>
    cases i with
    | zero => simp at h
    | succ i => exact ih i (by simpa using h)

lemma listGetD_set {α : Type} (l : List α) (i : Nat) (x d : α) :
    (l.set i x).getD i d = if i < l.length then x else d := by
  by_cases h : i < l.length
  · rw [if_pos h]
    exact listGetD_set_self l i x d h
  · rw [if_neg h]
    have hlen : l.length ≤ i := by omega
    have : (l.set i x).length ≤ i := by simpa using hlen
    induction l generalizing i with
    | nil => rfl
    | cons a as ih =>
      cases i with
      | zero => simp at hlen
      | succ i =>
        simp only [List.set]
        have := ih i (by simpa using h) (by simpa using hlen) (by simpa using this)
        simpa using this

/-! Basic facts about slot access and `get_thread_store`. -/

lemma slot_setSlot_self (e : HazardEpoch) (t : Nat) (ts : ThreadStore)
    (h : t < e.threads.length) : (e.setSlot t ts).slot t = ts :=
  listGetD_set_self e.threads t ts ThreadStore.new h

lemma slot_setSlot_ne (e : HazardEpoch) (t u : Nat) (ts : ThreadStore) (h : u ≠ t) :
    (e.setSlot t ts).slot u = e.slot u :=
  listGetD_set_ne e.threads u t ts ThreadStore.new h

lemma setSlot_length (e : HazardEpoch) (t : Nat) (ts : ThreadStore) :
    (e.setSlot t ts).threads.length = e.threads.length := by
  simp [HazardEpoch.setSlot]

/-- Setting a slot to a value that agrees with the old slot on the
version, seq, retire version, waiting list and waiting count leaves those
five fields of every slot unchanged. -/
lemma slot_fields_after_set (l : List ThreadStore) (tn t : Nat) (x : ThreadStore)
    (h1 : x.curr_version = (l.getD tn ThreadStore.new).curr_version)
    (h2 : x.seq = (l.getD tn ThreadStore.new).seq)
    (h3 : x.last_retire_version = (l.getD tn ThreadStore.new).last_retire_version)
    (h4 : x.hazard_waiting_list = (l.getD tn ThreadStore.new).hazard_waiting_list)
    (h5 : x.hazard_waiting_count = (l.getD tn ThreadStore.new).hazard_waiting_count) :
    ((l.set tn x).getD t ThreadStore.new).curr_version =
        (l.getD t ThreadStore.new).curr_version
    ∧ ((l.set tn x).getD t ThreadStore.new).seq = (l.getD t ThreadStore.new).seq
    ∧ ((l.set tn x).getD t ThreadStore.new).last_retire_version =
        (l.getD t ThreadStore.new).last_retire_version
    ∧ ((l.set tn x).getD t ThreadStore.new).hazard_waiting_list =
        (l.getD t ThreadStore.new).hazard_waiting_list
    ∧ ((l.set tn x).getD t ThreadStore.new).hazard_waiting_count =
        (l.getD t ThreadStore.new).hazard_waiting_count := by
  by_cases ht : t = tn
  · subst ht
    rw [listGetD_set]
    by_cases hl : t < l.length
    · rw [if_pos hl]
      exact ⟨h1, h2, h3, h4, h5⟩
    · rw [if_neg hl, listGetD_of_le l t _ (by omega)]
      exact ⟨rfl, rfl, rfl, rfl, rfl⟩
  · rw [listGetD_set_ne l t tn x ThreadStore.new ht]
    exact ⟨rfl, rfl, rfl, rfl, rfl⟩

lemma gts_status (e : HazardEpoch) (tn : Nat) :
    (e.get_thread_store tn).1 =
      if MAX_THREAD_COUNT ≤ tn then Status.ThreadNumOverflow else Status.Success := by
  unfold HazardEpoch.get_thread_store
  by_cases h : MAX_THREAD_COUNT ≤ tn
  · rw [if_pos h, if_pos h]
  · rw [if_neg h, if_neg h]
    by_cases he : (e.slot tn).enabled
    · rw [if_pos he]
    · rw [if_neg he]

lemma gts_enabled (e : HazardEpoch) (tn : Nat) (h1 : tn < MAX_THREAD_COUNT)
    (h2 : (e.slot tn).enabled = true) :
    e.get_thread_store tn = (Status.Success, e) := by
  unfold HazardEpoch.get_thread_store
  rw [if_neg (by omega), if_pos h2]

lemma gts_fresh (e : HazardEpoch) (tn : Nat) (h1 : tn < MAX_THREAD_COUNT)
    (h2 : ¬ (e.slot tn).enabled = true) :
    e.get_thread_store tn =
      (Status.Success,
        { e.setSlot tn { e.slot tn with enabled := true, tid := tn } with
            thread_list := tn :: e.thread_list
            thread_count := e.thread_count + 1 }) := by
  unfold HazardEpoch.get_thread_store
  rw [if_neg (by omega), if_neg h2]

/-- Registration never touches a slot's version, seq, retire bookkeeping or
waiting list, never removes anything from the active-thread list, and keeps
every engine field other than the thread registry. -/
lemma gts_state (e : HazardEpoch) (tn : Nat) :
    (e.get_thread_store tn).2.version = e.version
    ∧ (e.get_thread_store tn).2.threads.length = e.threads.length
    ∧ (e.get_thread_store tn).2.hazard_waiting_count = e.hazard_waiting_count
    ∧ (e.get_thread_store tn).2.thread_waiting_threshold = e.thread_waiting_threshold
    ∧ (e.get_thread_store tn).2.min_version_cache_time_us = e.min_version_cache_time_us
    ∧ (e.get_thread_store tn).2.curr_min_version = e.curr_min_version
    ∧ (e.get_thread_store tn).2.curr_min_version_timestamp = e.curr_min_version_timestamp
    ∧ (∀ t, ((e.get_thread_store tn).2.slot t).curr_version = (e.slot t).curr_version
        ∧ ((e.get_thread_store tn).2.slot t).seq = (e.slot t).seq
        ∧ ((e.get_thread_store tn).2.slot t).last_retire_version =
            (e.slot t).last_retire_version
        ∧ ((e.get_thread_store tn).2.slot t).hazard_waiting_list =
            (e.slot t).hazard_waiting_list
        ∧ ((e.get_thread_store tn).2.slot t).hazard_waiting_count =
            (e.slot t).hazard_waiting_count)
    ∧ (∀ t, t ∈ e.thread_list → t ∈ (e.get_thread_store tn).2.thread_list) := by
  unfold HazardEpoch.get_thread_store
  by_cases h : MAX_THREAD_COUNT ≤ tn
  · rw [if_pos h]
    exact ⟨rfl, rfl, rfl, rfl, rfl, rfl, rfl, fun t => ⟨rfl, rfl, rfl, rfl, rfl⟩,
      fun t ht => ht⟩
  · rw [if_neg h]
    by_cases he : (e.slot tn).enabled
    · rw [if_pos he]
      exact ⟨rfl, rfl, rfl, rfl, rfl, rfl, rfl, fun t => ⟨rfl, rfl, rfl, rfl, rfl⟩,
        fun t ht => ht⟩
    · rw [if_neg he]
      refine ⟨rfl, by simp [HazardEpoch.setSlot], rfl, rfl, rfl, rfl, rfl, ?_, ?_⟩
      · intro t
        exact slot_fields_after_set e.threads tn t _ rfl rfl rfl rfl rfl
      · intro t ht
        exact List.mem_cons_of_mem tn ht

/-- Explicit result of a successful `add_node`: after the (possible)
registration, the global version is bumped modulo 64 bits, the stamped node
is pushed onto the caller's slot and the aggregate count rises by one. -/
lemma add_node_eq (e : HazardEpoch) (tid : Nat) (nd : Node)
    (htid : tid < MAX_THREAD_COUNT) :
    e.add_node tid (some nd) =
      (Status.Success,
        { (e.get_thread_store tid).2 with
            version := ((e.get_thread_store tid).2.version + 1) % U64_MOD
            threads := (e.get_thread_store tid).2.threads.set tid
              (((e.get_thread_store tid).2.slot tid).inner_add_nodes
                [{ nd with version := ((e.get_thread_store tid).2.version + 1) % U64_MOD }])
            hazard_waiting_count := (e.get_thread_store tid).2.hazard_waiting_count + 1 }) := by
  have h1 : (e.get_thread_store tid).1 = Status.Success := by
    rw [gts_status]
    exact if_neg (by omega)
  have hgts : e.get_thread_store tid = (Status.Success, (e.get_thread_store tid).2) := by
    conv_lhs => rw [← Prod.mk.eta (p := e.get_thread_store tid)]
    rw [h1]
  unfold HazardEpoch.add_node
  rw [hgts]
  rfl

/-! Preservation of the control fields (enabled, tid, seq, curr_version)
of the per-thread stores across reclamation. -/

lemma inner_add_nodes_ctrl (ts : ThreadStore) (nodes : List Node) :
    (ts.inner_add_nodes nodes).enabled = ts.enabled
    ∧ (ts.inner_add_nodes nodes).tid = ts.tid
    ∧ (ts.inner_add_nodes nodes).seq = ts.seq
    ∧ (ts.inner_add_nodes nodes).curr_version = ts.curr_version := by
  rw [inner_add_nodes_eq]
  exact ⟨rfl, rfl, rfl, rfl⟩

lemma retireSelf_ctrl (ts : ThreadStore) (v : Nat) :
    (ts.retireSelf v).1.enabled = ts.enabled
    ∧ (ts.retireSelf v).1.tid = ts.tid
    ∧ (ts.retireSelf v).1.seq = ts.seq
    ∧ (ts.retireSelf v).1.curr_version = ts.curr_version := by
  by_cases h : ts.last_retire_version = v
  · unfold ThreadStore.retireSelf
    rw [if_pos h]
    exact ⟨rfl, rfl, rfl, rfl⟩
  · rw [retireSelf_eq ts v h]
    exact ⟨rfl, rfl, rfl, rfl⟩

lemma retire_ctrl (ts recv : ThreadStore) (v : Nat) :
    ((ts.retire v recv).1.enabled = ts.enabled
      ∧ (ts.retire v recv).1.tid = ts.tid
      ∧ (ts.retire v recv).1.seq = ts.seq
      ∧ (ts.retire v recv).1.curr_version = ts.curr_version)
    ∧ ((ts.retire v recv).2.1.enabled = recv.enabled
      ∧ (ts.retire v recv).2.1.tid = recv.tid
      ∧ (ts.retire v recv).2.1.seq = recv.seq
      ∧ (ts.retire v recv).2.1.curr_version = recv.curr_version) := by
  by_cases h : ts.last_retire_version = v
  · unfold ThreadStore.retire
    rw [if_pos h]
    exact ⟨⟨rfl, rfl, rfl, rfl⟩, rfl, rfl, rfl, rfl⟩
  · rw [retire_eq ts recv v h]
    exact ⟨⟨rfl, rfl, rfl, rfl⟩, rfl, rfl, rfl, rfl⟩

/-- Setting a slot to a value that agrees with the old slot on the control
fields leaves every slot's control fields unchanged. -/
lemma slot_ctrl_after_set (l : List ThreadStore) (tn t : Nat) (x : ThreadStore)
    (h1 : x.enabled = (l.getD tn ThreadStore.new).enabled)
    (h2 : x.tid = (l.getD tn ThreadStore.new).tid)
    (h3 : x.seq = (l.getD tn ThreadStore.new).seq)
    (h4 : x.curr_version = (l.getD tn ThreadStore.new).curr_version) :
    ((l.set tn x).getD t ThreadStore.new).enabled = (l.getD t ThreadStore.new).enabled
    ∧ ((l.set tn x).getD t ThreadStore.new).tid = (l.getD t ThreadStore.new).tid
    ∧ ((l.set tn x).getD t ThreadStore.new).seq = (l.getD t ThreadStore.new).seq
    ∧ ((l.set tn x).getD t ThreadStore.new).curr_version =
        (l.getD t ThreadStore.new).curr_version := by
  by_cases ht : t = tn
  · subst ht
    rw [listGetD_set]
    by_cases hl : t < l.length
    · rw [if_pos hl]
      exact ⟨h1, h2, h3, h4⟩
    · rw [if_neg hl, listGetD_of_le l t _ (by omega)]
      exact ⟨rfl, rfl, rfl, rfl⟩
  · rw [listGetD_set_ne l t tn x ThreadStore.new ht]
    exact ⟨rfl, rfl, rfl, rfl⟩

/-- The minimum-version computation only rewrites the cache fields. -/
lemma gmv_state (e : HazardEpoch) (f : Bool) (now : Int) :
    (e.get_min_version f now).2.threads = e.threads
    ∧ (e.get_min_version f now).2.thread_list = e.thread_list
    ∧ (e.get_min_version f now).2.version = e.version
    ∧ (e.get_min_version f now).2.hazard_waiting_count = e.hazard_waiting_count
    ∧ (e.get_min_version f now).2.thread_waiting_threshold = e.thread_waiting_threshold
    ∧ (e.get_min_version f now).2.thread_count = e.thread_count := by
  unfold HazardEpoch.get_min_version
  split
  · exact ⟨rfl, rfl, rfl, rfl, rfl, rfl⟩
  · exact ⟨rfl, rfl, rfl, rfl, rfl, rfl⟩

/-- A forced minimum-version computation always scans. -/
lemma gmv_force (e : HazardEpoch) (now : Int) :
    e.get_min_version true now =
      (minOverList e,
        { e with
            curr_min_version := minOverList e
            curr_min_version_timestamp := now }) := by
  unfold HazardEpoch.get_min_version
  rw [if_neg]
  intro h
  exact h.1 rfl

/-- One unfolding step of the flush loop at a non-caller slot. -/
lemma flushOthers_cons_ne (tid min_version t : Nat) (rest : List Nat)
    (e : HazardEpoch) (destroyed : List Node) (ht : ¬ t = tid) :
    flushOthers tid min_version (t :: rest) (e, destroyed) =
      flushOthers tid min_version rest
        (let p := (e.slot t).retire min_version (e.slot tid)
         let e1 := (e.setSlot t p.1).setSlot tid p.2.1
         ({ e1 with hazard_waiting_count := e1.hazard_waiting_count - p.2.2.2 },
          destroyed ++ p.2.2.1)) := by
  show (if t = tid then _ else _) = _
  rw [if_neg ht]

/-- One unfolding step of the flush loop at the caller slot. -/
lemma flushOthers_cons_eq (tid min_version : Nat) (rest : List Nat)
    (e : HazardEpoch) (destroyed : List Node) :
    flushOthers tid min_version (tid :: rest) (e, destroyed) =
      flushOthers tid min_version rest (e, destroyed) := by
  show (if tid = tid then _ else _) = _
  rw [if_pos rfl]

/-- The flush loop never changes any slot's control fields, the thread
registry shape, or the engine fields other than the waiting counts. -/
lemma flushOthers_state (tid min_version : Nat) (rest : List Nat) :
    ∀ (e : HazardEpoch) (destroyed : List Node) (u : Nat),
      ((flushOthers tid min_version rest (e, destroyed)).1.threads.length =
        e.threads.length)
      ∧ ((flushOthers tid min_version rest (e, destroyed)).1.thread_list = e.thread_list)
      ∧ ((flushOthers tid min_version rest (e, destroyed)).1.version = e.version)
      ∧ (((flushOthers tid min_version rest (e, destroyed)).1.slot u).enabled =
          (e.slot u).enabled)
      ∧ (((flushOthers tid min_version rest (e, destroyed)).1.slot u).tid = (e.slot u).tid)
      ∧ (((flushOthers tid min_version rest (e, destroyed)).1.slot u).seq = (e.slot u).seq)
      ∧ (((flushOthers tid min_version rest (e, destroyed)).1.slot u).curr_version =
          (e.slot u).curr_version) := by
  induction rest with
  | nil => exact fun e destroyed u => ⟨rfl, rfl, rfl, rfl, rfl, rfl, rfl⟩
  | cons t rest ih =>
    intro e destroyed u
    by_cases ht : t = tid
    · subst ht
      rw [flushOthers_cons_eq]
      exact ih e destroyed u
    · rw [flushOthers_cons_ne tid min_version t rest e destroyed ht]
      have hc1 := retire_ctrl (e.slot t) (e.slot tid) min_version
      have hstep1 := slot_ctrl_after_set e.threads t u
        ((e.slot t).retire min_version (e.slot tid)).1
        hc1.1.1 hc1.1.2.1 hc1.1.2.2.1 hc1.1.2.2.2
      have hgd : ((e.setSlot t ((e.slot t).retire min_version (e.slot tid)).1).slot tid) =
          e.slot tid := slot_setSlot_ne e t tid _ (fun hc => ht hc.symm)
      have hc2 : (((e.slot t).retire min_version (e.slot tid)).2.1).enabled =
            ((e.setSlot t ((e.slot t).retire min_version (e.slot tid)).1).slot tid).enabled
          ∧ (((e.slot t).retire min_version (e.slot tid)).2.1).tid =
            ((e.setSlot t ((e.slot t).retire min_version (e.slot tid)).1).slot tid).tid
          ∧ (((e.slot t).retire min_version (e.slot tid)).2.1).seq =
            ((e.setSlot t ((e.slot t).retire min_version (e.slot tid)).1).slot tid).seq
          ∧ (((e.slot t).retire min_version (e.slot tid)).2.1).curr_version =
            ((e.setSlot t ((e.slot t).retire min_version (e.slot tid)).1).slot
              tid).curr_version := by
        rw [hgd]
        exact ⟨hc1.2.1, hc1.2.2.1, hc1.2.2.2.1, hc1.2.2.2.2⟩
      have hstep2 := slot_ctrl_after_set
        (e.setSlot t ((e.slot t).retire min_version (e.slot tid)).1).threads tid u
        ((e.slot t).retire min_version (e.slot tid)).2.1
        hc2.1 hc2.2.1 hc2.2.2.1 hc2.2.2.2
      have hrec := ih
        { (e.setSlot t ((e.slot t).retire min_version (e.slot tid)).1).setSlot tid
            ((e.slot t).retire min_version (e.slot tid)).2.1 with
            hazard_waiting_count :=
              ((e.setSlot t ((e.slot t).retire min_version (e.slot tid)).1).setSlot tid
                ((e.slot t).retire min_version (e.slot tid)).2.1).hazard_waiting_count -
                ((e.slot t).retire min_version (e.slot tid)).2.2.2 }
        (destroyed ++ ((e.slot t).retire min_version (e.slot tid)).2.2.1) u
      refine ⟨?_, hrec.2.1, hrec.2.2.1, ?_, ?_, ?_, ?_⟩
      · refine hrec.1.trans ?_
        show ((e.threads.set t _).set tid _).length = e.threads.length
        simp
      · exact hrec.2.2.2.1.trans (hstep2.1.trans hstep1.1)
      · exact hrec.2.2.2.2.1.trans (hstep2.2.1.trans hstep1.2.1)
      · exact hrec.2.2.2.2.2.1.trans (hstep2.2.2.1.trans hstep1.2.2.1)
      · exact hrec.2.2.2.2.2.2.trans (hstep2.2.2.2.trans hstep1.2.2.2)

/-- `ThreadStore::release` with a matching seq performs the release
regardless of the tid comparison. -/
lemma tsRelease_seq_match (ts : ThreadStore) (h : VersionHandle) (hseq : ts.seq = h.seq) :
    ts.release h =
      ({ ts with curr_version := U64_MAX, seq := (ts.seq + 1) % U32_MOD }, []) := by
  unfold ThreadStore.release
  rw [if_neg (fun hc => hc.2 (by rw [hseq]))]

/-- `ThreadStore::acquire` on a slot holding no version succeeds. -/
lemma tsAcquire_free (ts : ThreadStore) (v : Nat) (h0 : VersionHandle)
    (hfree : ts.curr_version = U64_MAX) :
    ts.acquire v h0 =
      (Status.Success, { ts with curr_version := v },
        { tid := ts.tid, high_bits := 0, seq := ts.seq }) := by
  unfold ThreadStore.acquire
  rw [if_neg (fun hc => hc hfree)]

/-- `ThreadStore::acquire` on a slot already holding a version is Busy and
changes nothing. -/
lemma tsAcquire_busy (ts : ThreadStore) (v : Nat) (h0 : VersionHandle)
    (hbusy : ts.curr_version ≠ U64_MAX) :
    ts.acquire v h0 = (Status.Busy, ts, h0) := by
  unfold ThreadStore.acquire
  rw [if_pos hbusy]

/-- Explicit form of `HazardEpoch::acquire` from an already registered
thread. -/
lemma acquire_eq_enabled (e : HazardEpoch) (tid : Nat)
    (htid : tid < MAX_THREAD_COUNT) (hen : (e.slot tid).enabled = true) :
    e.acquire tid =
      (((e.slot tid).acquire e.version { tid := 0, high_bits := 0, seq := 0 }).1,
        e.setSlot tid
          ((e.slot tid).acquire e.version { tid := 0, high_bits := 0, seq := 0 }).2.1,
        ((e.slot tid).acquire e.version { tid := 0, high_bits := 0, seq := 0 }).2.2) := by
  unfold HazardEpoch.acquire
  rw [gts_enabled e tid htid hen]
  rfl

/-- Explicit form of the global flush from an already registered thread:
forced min-version scan, self scan, then the loop over the thread list. -/
lemma flush_eq (e : HazardEpoch) (tid : Nat) (now : Int)
    (htid : tid < MAX_THREAD_COUNT) (hen : (e.slot tid).enabled = true) :
    e.retire tid now =
      flushOthers tid (minOverList e) e.thread_list
        ({ ({ e with
                curr_min_version := minOverList e
                curr_min_version_timestamp := now } : HazardEpoch).setSlot tid
              ((e.slot tid).retireSelf (minOverList e)).1 with
            hazard_waiting_count :=
              e.hazard_waiting_count - ((e.slot tid).retireSelf (minOverList e)).2.2 },
          ((e.slot tid).retireSelf (minOverList e)).2.1) := by
  unfold HazardEpoch.retire
  rw [gts_enabled e tid htid hen]
  rfl

/-- Explicit form of `HazardEpoch::release` for an in-range handle:
the slot releases, then one of the three dispatch branches runs. -/
lemma release_eq (e : HazardEpoch) (h : VersionHandle) (ctid : Nat) (now : Int)
    (hh : h.tid < MAX_THREAD_COUNT) :
    e.release h ctid now =
      (if (e.setSlot h.tid ((e.slot h.tid).release h).1).thread_waiting_threshold <
          ((e.slot h.tid).release h).1.hazard_waiting_count then
        ({ ((e.setSlot h.tid ((e.slot h.tid).release h).1).get_min_version false
              now).2.setSlot h.tid
            ((((e.setSlot h.tid ((e.slot h.tid).release h).1).get_min_version false
                now).2.slot h.tid).retireSelf
              ((e.setSlot h.tid ((e.slot h.tid).release h).1).get_min_version false
                now).1).1 with
            hazard_waiting_count :=
              ((e.setSlot h.tid ((e.slot h.tid).release h).1).get_min_version false
                  now).2.hazard_waiting_count -
                ((((e.setSlot h.tid ((e.slot h.tid).release h).1).get_min_version false
                    now).2.slot h.tid).retireSelf
                  ((e.setSlot h.tid ((e.slot h.tid).release h).1).get_min_version false
                    now).1).2.2 },
          ((((e.setSlot h.tid ((e.slot h.tid).release h).1).get_min_version false
              now).2.slot h.tid).retireSelf
            ((e.setSlot h.tid ((e.slot h.tid).release h).1).get_min_version false
              now).1).2.1,
          ((e.slot h.tid).release h).2)
      else if (e.setSlot h.tid ((e.slot h.tid).release h).1).thread_count *
          (e.setSlot h.tid ((e.slot h.tid).release h).1).thread_waiting_threshold <
          (e.setSlot h.tid ((e.slot h.tid).release h).1).hazard_waiting_count then
        (((e.setSlot h.tid ((e.slot h.tid).release h).1).retire ctid now).1,
          ((e.setSlot h.tid ((e.slot h.tid).release h).1).retire ctid now).2,
          ((e.slot h.tid).release h).2)
      else
        (e.setSlot h.tid ((e.slot h.tid).release h).1, [],
          ((e.slot h.tid).release h).2)) := by
  unfold HazardEpoch.release
  rw [if_pos hh]
  rfl

/-- The global flush from a registered thread preserves every slot's
control fields and the slot-array length. -/
lemma flush_state (e : HazardEpoch) (tid : Nat) (now : Int) (u : Nat)
    (htid : tid < MAX_THREAD_COUNT) (hen : (e.slot tid).enabled = true) :
    (e.retire tid now).1.threads.length = e.threads.length
    ∧ ((e.retire tid now).1.slot u).enabled = (e.slot u).enabled
    ∧ ((e.retire tid now).1.slot u).tid = (e.slot u).tid
    ∧ ((e.retire tid now).1.slot u).seq = (e.slot u).seq
    ∧ ((e.retire tid now).1.slot u).curr_version = (e.slot u).curr_version := by
  rw [flush_eq e tid now htid hen]
  have hfo := flushOthers_state tid (minOverList e) e.thread_list
    { ({ e with
          curr_min_version := minOverList e
          curr_min_version_timestamp := now } : HazardEpoch).setSlot tid
        ((e.slot tid).retireSelf (minOverList e)).1 with
        hazard_waiting_count :=
          e.hazard_waiting_count - ((e.slot tid).retireSelf (minOverList e)).2.2 }
    ((e.slot tid).retireSelf (minOverList e)).2.1 u
  have hsc := retireSelf_ctrl (e.slot tid) (minOverList e)
  have hstep := slot_ctrl_after_set e.threads tid u
    ((e.slot tid).retireSelf (minOverList e)).1 hsc.1 hsc.2.1 hsc.2.2.1 hsc.2.2.2
  refine ⟨?_, ?_, ?_, ?_, ?_⟩
  · refine hfo.1.trans ?_
    show (e.threads.set tid _).length = e.threads.length
    simp
  · exact hfo.2.2.2.1.trans hstep.1
  · exact hfo.2.2.2.2.1.trans hstep.2.1
  · exact hfo.2.2.2.2.2.1.trans hstep.2.2.1
  · exact hfo.2.2.2.2.2.2.trans hstep.2.2.2

/-- Claim C1 evaluated on the code at its failing input: the handle's tid
matches the slot's but the seq does not, and `ThreadStore::release`
nevertheless performs the release (stores the sentinel and increments the
seq) without logging, because the code requires BOTH fields to mismatch
before treating a handle as invalid. -/
theorem C1_code_eval :
    ThreadStore.release tsC1 hC1 =
      ({ tsC1 with curr_version := U64_MAX, seq := 6 }, []) := by
  decide

/-- Claim C4: with a version different from `last_retire_version`,
`ThreadStore::retire` takes the whole list, destroys exactly the nodes with
version at most `v` (in reverse encounter order), donates the survivors to
the receiver in their original relative order, adjusts the counts by the
total taken resp. the survivor count, and returns the reclaim count; with
the remembered version it returns 0 and changes nothing. -/
theorem C4_scan_retire (ts recv : ThreadStore) (v : Nat)
    (h : ts.last_retire_version ≠ v) :
    (ts.retire v recv =
      ({ ts with
          last_retire_version := v
          hazard_waiting_list := []
          hazard_waiting_count :=
            ts.hazard_waiting_count - ts.hazard_waiting_list.length },
        { recv with
            hazard_waiting_list :=
              ts.hazard_waiting_list.filter (fun n => decide (v < n.version)) ++
                recv.hazard_waiting_list
            hazard_waiting_count :=
              recv.hazard_waiting_count +
                (ts.hazard_waiting_list.filter (fun n => decide (v < n.version))).length },
        (ts.hazard_waiting_list.filter (fun n => decide (n.version ≤ v))).reverse,
        ((ts.hazard_waiting_list.filter (fun n => decide (n.version ≤ v))).reverse.length :
          Int)))
    ∧ (∀ n : Node, n ∈ (ts.retire v recv).2.2.1 ↔
        n ∈ ts.hazard_waiting_list ∧ n.version ≤ v)
    ∧ ts.retire ts.last_retire_version recv = (ts, recv, [], 0) := by
  refine ⟨retire_eq ts recv v h, ?_, ?_⟩
  · intro n
    rw [retire_eq ts recv v h]
    simp only [List.mem_reverse, List.mem_filter, decide_eq_true_eq]
  · unfold ThreadStore.retire
    rw [if_pos rfl]

/-- Witness for C4 at a concrete slot, receiver and version. -/
theorem C4_scan_retire_witness :
    tsW4.retire 5 recvW4 =
      ({ tsW4 with
          last_retire_version := 5
          hazard_waiting_list := []
          hazard_waiting_count := 0 },
        { recvW4 with
            hazard_waiting_list :=
              [{ id := 0, version := 9 }, { id := 9, version := 1 }]
            hazard_waiting_count := 2 },
        [{ id := 2, version := 5 }, { id := 1, version := 2 }],
        2) :=
  ((C4_scan_retire tsW4 recvW4 5 (by decide)).1).trans (by decide)

/-- Claim C5: `get_min_version` returns the warm nonzero cache without
scanning when not forced; otherwise it stores and returns the minimum of
the global version and every listed slot's current version; and slots at
the sentinel never lower the computed minimum (dropping them from the scan
does not change it, provided the global version is a 64-bit value). -/
theorem C5_get_min_version (e : HazardEpoch) (now : Int) (force : Bool) :
    ((force = false ∧ e.curr_min_version ≠ 0 ∧
        now < e.curr_min_version_timestamp + e.min_version_cache_time_us) →
      e.get_min_version force now = (e.curr_min_version, e))
    ∧ ((force = true ∨ e.curr_min_version = 0 ∨
        e.curr_min_version_timestamp + e.min_version_cache_time_us ≤ now) →
      e.get_min_version force now =
        (minOverList e,
          { e with
              curr_min_version := minOverList e
              curr_min_version_timestamp := now }))
    ∧ (e.version ≤ U64_MAX →
      minOverList e =
        (e.thread_list.filter (fun t => decide ((e.slot t).version ≠ U64_MAX))).foldl
          (fun m t => min m (e.slot t).version) e.version) := by
  refine ⟨?_, ?_, ?_⟩
  · rintro ⟨hf, h0, ht⟩
    subst hf
    unfold HazardEpoch.get_min_version
    rw [if_pos ⟨by simp, h0, ht⟩]
  · intro hcases
    unfold HazardEpoch.get_min_version
    rw [if_neg ?_]
    rintro ⟨hnf, h0, ht⟩
    rcases hcases with hf | hc | hc
    · exact hnf (by simp [hf])
    · exact h0 hc
    · omega
  · intro hv
    exact foldl_min_filter_sentinel (fun t => (e.slot t).version) e.thread_list e.version hv

/-- Witness for C5: the warm cache of the concrete engine is returned as
is. -/
theorem C5_get_min_version_witness :
    eW5.get_min_version false 5 = (7, eW5) :=
  (C5_get_min_version eW5 5 false).1 ⟨rfl, by decide, by decide⟩

/-- Claim C9: `add_node` rejects a null node with InvalidParam and an
out-of-range thread with ThreadNumOverflow, both without touching the
engine state, and succeeds for a non-null node from an in-range thread. -/
theorem C9_add_node_status (e : HazardEpoch) (tid : Nat) (nd : Node) :
    e.add_node tid none = (Status.InvalidParam, e)
    ∧ (MAX_THREAD_COUNT ≤ tid → e.add_node tid (some nd) = (Status.ThreadNumOverflow, e))
    ∧ (tid < MAX_THREAD_COUNT → (e.add_node tid (some nd)).1 = Status.Success) := by
  refine ⟨rfl, ?_, ?_⟩
  · intro h
    simp [HazardEpoch.add_node, HazardEpoch.get_thread_store, if_pos h]
  · intro h
    by_cases he : (e.slot tid).enabled
    · simp [HazardEpoch.add_node, HazardEpoch.get_thread_store, Nat.not_le.mpr h, he,
        ThreadStore.add_node]
    · simp [HazardEpoch.add_node, HazardEpoch.get_thread_store, Nat.not_le.mpr h, he,
        ThreadStore.add_node]

/-- Witness for C9: the overflow rejection and a successful retire on the
fresh default engine. -/
theorem C9_add_node_status_witness :
    engine0.add_node 16 (some ndC2) = (Status.ThreadNumOverflow, engine0)
    ∧ (engine0.add_node 0 (some ndC2)).1 = Status.Success :=
  ⟨(C9_add_node_status engine0 16 ndC2).2.1 (by decide),
    (C9_add_node_status engine0 0 ndC2).2.2 (by decide)⟩

/-- Claim C7: barring 64-bit wraparound, every successful retire bumps the
global version by exactly one, stamps the retired node with the
post-increment value, and two successive retires therefore produce strictly
increasing global versions and strictly increasing node stamps. -/
theorem C7_monotone_versions (e : HazardEpoch) (tid tid2 : Nat) (nd nd2 : Node)
    (hlen : e.threads.length = MAX_THREAD_COUNT)
    (htid : tid < MAX_THREAD_COUNT) (htid2 : tid2 < MAX_THREAD_COUNT)
    (hov : e.version + 2 < U64_MOD) :
    (e.add_node tid (some nd)).1 = Status.Success
    ∧ (e.add_node tid (some nd)).2.version = e.version + 1
    ∧ ((e.add_node tid (some nd)).2.slot tid).hazard_waiting_list =
        { nd with version := e.version + 1 } :: (e.slot tid).hazard_waiting_list
    ∧ ((e.add_node tid (some nd)).2.add_node tid2 (some nd2)).2.version = e.version + 2
    ∧ (((e.add_node tid (some nd)).2.add_node tid2 (some nd2)).2.slot tid2).hazard_waiting_list =
        { nd2 with version := e.version + 2 } ::
          ((e.add_node tid (some nd)).2.slot tid2).hazard_waiting_list
    ∧ e.version < (e.add_node tid (some nd)).2.version
    ∧ (e.add_node tid (some nd)).2.version <
        ((e.add_node tid (some nd)).2.add_node tid2 (some nd2)).2.version := by
  obtain ⟨hgv, hglen, hgcnt, _, _, _, _, hgslot, hgmem⟩ := gts_state e tid
  have hadd := add_node_eq e tid nd htid
  have hver1 : (e.add_node tid (some nd)).2.version = e.version + 1 := by
    rw [hadd]
    show ((e.get_thread_store tid).2.version + 1) % U64_MOD = e.version + 1
    rw [hgv]
    exact Nat.mod_eq_of_lt (by omega)
  have hlen1 : (e.add_node tid (some nd)).2.threads.length = MAX_THREAD_COUNT := by
    rw [hadd]
    show ((e.get_thread_store tid).2.threads.set tid _).length = MAX_THREAD_COUNT
    rw [List.length_set, hglen, hlen]
  have hslot1 : (e.add_node tid (some nd)).2.slot tid =
      ((e.get_thread_store tid).2.slot tid).inner_add_nodes
        [{ nd with version := e.version + 1 }] := by
    rw [hadd]
    show ((e.get_thread_store tid).2.threads.set tid _).getD tid ThreadStore.new = _
    rw [listGetD_set_self _ _ _ _ (by rw [hglen, hlen]; omega), hgv,
      Nat.mod_eq_of_lt (show e.version + 1 < U64_MOD by omega)]
  obtain ⟨hgv2, hglen2, _, _, _, _, _, hgslot2, _⟩ :=
    gts_state (e.add_node tid (some nd)).2 tid2
  have hadd2 := add_node_eq (e.add_node tid (some nd)).2 tid2 nd2 htid2
  have hver2 : ((e.add_node tid (some nd)).2.add_node tid2 (some nd2)).2.version =
      e.version + 2 := by
    rw [hadd2]
    show (((e.add_node tid (some nd)).2.get_thread_store tid2).2.version + 1) % U64_MOD =
      e.version + 2
    rw [hgv2, hver1]
    exact Nat.mod_eq_of_lt (by omega)
  have hslot2 : ((e.add_node tid (some nd)).2.add_node tid2 (some nd2)).2.slot tid2 =
      (((e.add_node tid (some nd)).2.get_thread_store tid2).2.slot tid2).inner_add_nodes
        [{ nd2 with version := e.version + 2 }] := by
    rw [hadd2]
    show (((e.add_node tid (some nd)).2.get_thread_store tid2).2.threads.set tid2 _).getD
        tid2 ThreadStore.new = _
    rw [listGetD_set_self _ _ _ _ (by rw [hglen2, hlen1]; omega), hgv2, hver1,
      Nat.mod_eq_of_lt (show e.version + 2 < U64_MOD by omega)]
  refine ⟨by rw [hadd], hver1, ?_, hver2, ?_, ?_, ?_⟩
  · rw [hslot1, inner_add_nodes_eq]
    show { nd with version := e.version + 1 } ::
        ((e.get_thread_store tid).2.slot tid).hazard_waiting_list = _
    rw [(hgslot tid).2.2.2.1]
  · rw [hslot2, inner_add_nodes_eq]
    show { nd2 with version := e.version + 2 } ::
        (((e.add_node tid (some nd)).2.get_thread_store tid2).2.slot tid2).hazard_waiting_list
        = _
    rw [(hgslot2 tid2).2.2.2.1]
  · omega
  · omega

/-- Witness for C7: two successive retires on the fresh default engine move
the global version from 0 to 2. -/
theorem C7_monotone_versions_witness :
    ((engine0.add_node 0 (some ndC2)).2.add_node 0 (some ndC2)).2.version = 2 :=
  (C7_monotone_versions engine0 0 0 ndC2 ndC2 (by decide) (by decide) (by decide)
    (by decide)).2.2.2.1

/-! Destroyed nodes are bounded by the scan version. -/

lemma retireSelf_destroyed_le (ts : ThreadStore) (v : Nat) (n : Node)
    (h : n ∈ (ts.retireSelf v).2.1) : n.version ≤ v := by
  by_cases hl : ts.last_retire_version = v
  · unfold ThreadStore.retireSelf at h
    rw [if_pos hl] at h
    simp at h
  · rw [retireSelf_eq ts v hl] at h
    simp only [List.mem_reverse, List.mem_filter, decide_eq_true_eq] at h
    exact h.2

lemma retire_destroyed_le (ts recv : ThreadStore) (v : Nat) (n : Node)
    (h : n ∈ (ts.retire v recv).2.2.1) : n.version ≤ v := by
  by_cases hl : ts.last_retire_version = v
  · unfold ThreadStore.retire at h
    rw [if_pos hl] at h
    simp at h
  · rw [retire_eq ts recv v hl] at h
    simp only [List.mem_reverse, List.mem_filter, decide_eq_true_eq] at h
    exact h.2

lemma flushOthers_destroyed_le (tid min_version : Nat) (rest : List Nat) :
    ∀ (e : HazardEpoch) (destroyed : List Node),
      (∀ n ∈ destroyed, n.version ≤ min_version) →
      ∀ n ∈ (flushOthers tid min_version rest (e, destroyed)).2, n.version ≤ min_version := by
  induction rest with
  | nil => exact fun e destroyed hd => hd
  | cons t rest ih =>
    intro e destroyed hd
    by_cases ht : t = tid
    · subst ht
      rw [flushOthers_cons_eq]
      exact ih e destroyed hd
    · rw [flushOthers_cons_ne tid min_version t rest e destroyed ht]
      refine ih _ _ ?_
      intro m hm
      rcases List.mem_append.mp hm with hm | hm
      · exact hd m hm
      · exact retire_destroyed_le _ _ _ m hm

/-- The global flush from an out-of-range thread is a no-op. -/
lemma flush_overflow (e : HazardEpoch) (tid : Nat) (now : Int)
    (htid : MAX_THREAD_COUNT ≤ tid) : e.retire tid now = (e, []) := by
  unfold HazardEpoch.retire HazardEpoch.get_thread_store
  rw [if_pos htid]
  rfl

/-- Explicit form of the global flush for any in-range thread, phrased over
the post-registration engine. -/
lemma flush_eq_general (e : HazardEpoch) (tid : Nat) (now : Int)
    (htid : tid < MAX_THREAD_COUNT) :
    e.retire tid now =
      flushOthers tid (minOverList (e.get_thread_store tid).2)
        (e.get_thread_store tid).2.thread_list
        ({ ({ (e.get_thread_store tid).2 with
                curr_min_version := minOverList (e.get_thread_store tid).2
                curr_min_version_timestamp := now } : HazardEpoch).setSlot tid
              (((e.get_thread_store tid).2.slot tid).retireSelf
                (minOverList (e.get_thread_store tid).2)).1 with
            hazard_waiting_count :=
              (e.get_thread_store tid).2.hazard_waiting_count -
                (((e.get_thread_store tid).2.slot tid).retireSelf
                  (minOverList (e.get_thread_store tid).2)).2.2 },
          (((e.get_thread_store tid).2.slot tid).retireSelf
            (minOverList (e.get_thread_store tid).2)).2.1) := by
  have h1 : (e.get_thread_store tid).1 = Status.Success := by
    rw [gts_status]
    exact if_neg (by omega)
  have hgts : e.get_thread_store tid = (Status.Success, (e.get_thread_store tid).2) := by
    conv_lhs => rw [← Prod.mk.eta (p := e.get_thread_store tid)]
    rw [h1]
  unfold HazardEpoch.retire
  rw [hgts]
  rfl

/-- Every node a global flush destroys has version at most the published
version of any slot on the active-thread list. -/
lemma flush_destroyed_le (e : HazardEpoch) (tid : Nat) (now : Int) (t av : Nat)
    (hmem : t ∈ e.thread_list) (hav : (e.slot t).curr_version = av) :
    ∀ n ∈ (e.retire tid now).2, n.version ≤ av := by
  by_cases htid : MAX_THREAD_COUNT ≤ tid
  · rw [flush_overflow e tid now htid]
    intro n hn
    simp at hn
  · obtain ⟨_, _, _, _, _, _, _, hgslot, hgmem⟩ := gts_state e tid
    have hminle : minOverList (e.get_thread_store tid).2 ≤ av := by
      refine le_trans (minOverList_le_slot _ t (hgmem t hmem)) ?_
      rw [show ((e.get_thread_store tid).2.slot t).version =
        ((e.get_thread_store tid).2.slot t).curr_version from rfl, (hgslot t).1, hav]
    rw [flush_eq_general e tid now (by omega)]
    intro n hn
    refine le_trans (flushOthers_destroyed_le _ _ _ _ _ ?_ n hn) hminle
    intro m hm
    exact retireSelf_destroyed_le _ _ m hm

/-- `HazardEpoch::release` ignores handles whose tid is out of range. -/
lemma release_oob (e : HazardEpoch) (handle : VersionHandle) (ctid : Nat) (now : Int)
    (h : MAX_THREAD_COUNT ≤ handle.tid) :
    e.release handle ctid now = (e, [], []) := by
  unfold HazardEpoch.release
  rw [if_neg (by omega)]

/-- The cached-or-scanned minimum version never exceeds a published
version of a listed slot, provided the cache (when warm) is below it. -/
lemma gmv_le (e : HazardEpoch) (now : Int) (t av : Nat)
    (hmem : t ∈ e.thread_list) (hav : (e.slot t).curr_version = av)
    (hcache : e.curr_min_version = 0 ∨ e.curr_min_version ≤ av) :
    (e.get_min_version false now).1 ≤ av := by
  unfold HazardEpoch.get_min_version
  split
  · next hcond =>
    rcases hcache with h0 | hle
    · exact absurd h0 hcond.2.1
    · exact hle
  · next =>
    exact hav ▸ minOverList_le_slot e t hmem

/-- Counterexample to claim C2 as stated: on an engine with per-thread
threshold 0, a successful `add_node` leaves the slot's count (1) above the
threshold, yet the engine state differs from the state the claim requires
(push followed by the threshold dispatch): the code never runs the scan, so
the node is still pending. -/
theorem C2_counterexample :
    (eC2.add_node 0 (some ndC2)).2 ≠ (add_node_then_dispatch eC2 0 (some ndC2) 0).2.1 := by
  decide

/-- Claim C2 as amended: a successful `add_node` only pushes the stamped
node and bumps the aggregate count, running no scan and no flush; the
threshold dispatch the claim describes (local scan when the slot's count
exceeds the threshold, else global flush when the aggregate exceeds
`thread_count * threshold`) is what `HazardEpoch::release` runs after the
slot releases. -/
theorem C2_dispatch_on_release (e : HazardEpoch) (tid : Nat) (nd : Node)
    (handle : VersionHandle) (ctid : Nat) (now : Int)
    (htid : tid < MAX_THREAD_COUNT)
    (hlen : e.threads.length = MAX_THREAD_COUNT)
    (hh : handle.tid < MAX_THREAD_COUNT) :
    (e.add_node tid (some nd) =
      (Status.Success,
        { (e.get_thread_store tid).2 with
            version := ((e.get_thread_store tid).2.version + 1) % U64_MOD
            threads := (e.get_thread_store tid).2.threads.set tid
              (((e.get_thread_store tid).2.slot tid).inner_add_nodes
                [{ nd with version := ((e.get_thread_store tid).2.version + 1) % U64_MOD }])
            hazard_waiting_count := (e.get_thread_store tid).2.hazard_waiting_count + 1 }))
    ∧ (e.release handle ctid now =
        ((retireDispatch (e.setSlot handle.tid ((e.slot handle.tid).release handle).1)
            handle.tid ctid now).1,
          (retireDispatch (e.setSlot handle.tid ((e.slot handle.tid).release handle).1)
            handle.tid ctid now).2,
          ((e.slot handle.tid).release handle).2)) := by
  refine ⟨add_node_eq e tid nd htid, ?_⟩
  rw [release_eq e handle ctid now hh]
  have hslot : (e.setSlot handle.tid ((e.slot handle.tid).release handle).1).slot handle.tid
      = ((e.slot handle.tid).release handle).1 :=
    slot_setSlot_self e handle.tid _ (by omega)
  unfold retireDispatch
  rw [hslot]
  by_cases hc1 : (e.setSlot handle.tid
      ((e.slot handle.tid).release handle).1).thread_waiting_threshold <
      ((e.slot handle.tid).release handle).1.hazard_waiting_count
  · rw [if_pos hc1, if_pos hc1]
    rfl
  · rw [if_neg hc1, if_neg hc1]
    by_cases hc2 : (e.setSlot handle.tid ((e.slot handle.tid).release handle).1).thread_count *
        (e.setSlot handle.tid
          ((e.slot handle.tid).release handle).1).thread_waiting_threshold <
        (e.setSlot handle.tid ((e.slot handle.tid).release handle).1).hazard_waiting_count
    · rw [if_pos hc2, if_pos hc2]
    · rw [if_neg hc2, if_neg hc2]

/-- Witness for C2's amended dispatch placement on the fresh default
engine. -/
theorem C2_dispatch_on_release_witness :
    engine0.release { tid := 0, high_bits := 0, seq := 0 } 0 0 =
      ((retireDispatch
          (engine0.setSlot 0
            ((engine0.slot 0).release { tid := 0, high_bits := 0, seq := 0 }).1) 0 0 0).1,
        (retireDispatch
          (engine0.setSlot 0
            ((engine0.slot 0).release { tid := 0, high_bits := 0, seq := 0 }).1) 0 0 0).2,
        ((engine0.slot 0).release { tid := 0, high_bits := 0, seq := 0 }).2) :=
  (C2_dispatch_on_release engine0 0 ndC2 { tid := 0, high_bits := 0, seq := 0 } 0 0
    (by decide) (by decide) (by decide)).2

set_option maxRecDepth 1000000 in
/-- Claim C3: while slot `t` on the active-thread list holds an acquired
version `av` (not the sentinel), no global flush and no release-triggered
scan or flush from another thread destroys a retired node with version
above `av` (for a release-triggered local scan this uses that a warm
minimum-version cache lies below `av`, which holds in every reachable
state since the cache is a minimum over global and published versions
taken while `av` was held or before it was acquired); and concretely,
after acquiring, retiring 64 nodes and flushing, all 64 nodes survive,
while releasing and flushing once more destroys all 64. -/
theorem C3_no_premature_free (e : HazardEpoch) (t av : Nat)
    (hmem : t ∈ e.thread_list)
    (hav : (e.slot t).curr_version = av)
    (hsent : av ≠ U64_MAX)
    (hcache : e.curr_min_version = 0 ∨ e.curr_min_version ≤ av) :
    (∀ (ctid : Nat) (now : Int), ∀ n ∈ (e.retire ctid now).2, n.version ≤ av)
    ∧ (∀ (h : VersionHandle) (ctid : Nat) (now : Int), h.tid ≠ t →
        ∀ n ∈ (e.release h ctid now).2.1, n.version ≤ av)
    ∧ (scenFlush1.2 = [] ∧ scenFlush1.1.hazard_waiting_count = 64
        ∧ scenRel.2.1 = [] ∧ scenFlush2.2.length = 64
        ∧ scenFlush2.1.hazard_waiting_count = 0) := by
  refine ⟨?_, ?_, ?_⟩
  · intro ctid now
    exact flush_destroyed_le e ctid now t av hmem hav
  · intro h ctid now hne n hn
    by_cases hh : h.tid < MAX_THREAD_COUNT
    · rw [release_eq e h ctid now hh] at hn
      have hm : t ∈ (e.setSlot h.tid ((e.slot h.tid).release h).1).thread_list := hmem
      have hs : ((e.setSlot h.tid ((e.slot h.tid).release h).1).slot t).curr_version = av := by
        rw [slot_setSlot_ne e h.tid t _ (fun hc => hne hc.symm)]
        exact hav
      by_cases hc1 : (e.setSlot h.tid
          ((e.slot h.tid).release h).1).thread_waiting_threshold <
          ((e.slot h.tid).release h).1.hazard_waiting_count
      · rw [if_pos hc1] at hn
        have hle1 : n.version ≤
            ((e.setSlot h.tid ((e.slot h.tid).release h).1).get_min_version false now).1 :=
          retireSelf_destroyed_le _ _ n hn
        exact le_trans hle1
          (gmv_le (e.setSlot h.tid ((e.slot h.tid).release h).1) now t av hm hs hcache)
      · rw [if_neg hc1] at hn
        by_cases hc2 : (e.setSlot h.tid ((e.slot h.tid).release h).1).thread_count *
            (e.setSlot h.tid ((e.slot h.tid).release h).1).thread_waiting_threshold <
            (e.setSlot h.tid ((e.slot h.tid).release h).1).hazard_waiting_count
        · rw [if_pos hc2] at hn
          exact flush_destroyed_le (e.setSlot h.tid ((e.slot h.tid).release h).1)
            ctid now t av hm hs n hn
        · rw [if_neg hc2] at hn
          simp at hn
    · rw [release_oob e h ctid now (by omega)] at hn
      simp at hn
  · exact ⟨by decide, by decide, by decide, by decide, by decide⟩

set_option maxRecDepth 1000000 in
/-- Witness for C3: the concrete 64-node scenario, obtained from the
theorem at the engine in which thread 0 holds version 0. -/
theorem C3_no_premature_free_witness :
    scenFlush1.2 = [] ∧ scenFlush1.1.hazard_waiting_count = 64
    ∧ scenRel.2.1 = [] ∧ scenFlush2.2.length = 64
    ∧ scenFlush2.1.hazard_waiting_count = 0 :=
  (C3_no_premature_free scenE1 0 0 (by decide) (by decide) (by decide)
    (Or.inl (by decide))).2.2

/-- Claim C6: while a thread's slot holds an acquired version, a second
acquire returns Busy and leaves the engine (in particular the slot's
version and seq) unchanged; after releasing the held handle, a subsequent
acquire succeeds. -/
theorem C6_busy_then_success (e : HazardEpoch) (tid : Nat) (now : Int)
    (handle : VersionHandle)
    (hlen : e.threads.length = MAX_THREAD_COUNT)
    (htid : tid < MAX_THREAD_COUNT)
    (hen : (e.slot tid).enabled = true)
    (hav : (e.slot tid).curr_version ≠ U64_MAX)
    (hhtid : handle.tid = tid)
    (hhseq : handle.seq = (e.slot tid).seq) :
    (e.acquire tid).1 = Status.Busy
    ∧ (e.acquire tid).2.1 = e
    ∧ (((e.release handle tid now).1).acquire tid).1 = Status.Success := by
  have hself : e.setSlot tid (e.slot tid) = e := by
    show { e with threads := e.threads.set tid (e.threads.getD tid ThreadStore.new) } = e
    rw [listSet_getD_self e.threads tid ThreadStore.new (by omega)]
  have hsucc : ∀ EF : HazardEpoch, (EF.slot tid).enabled = true →
      (EF.slot tid).curr_version = U64_MAX → (EF.acquire tid).1 = Status.Success := by
    intro EF h1 h2
    rw [acquire_eq_enabled EF tid htid h1, tsAcquire_free _ _ _ h2]
  have hrel := tsRelease_seq_match (e.slot tid) handle hhseq.symm
  have hen1 : ((e.setSlot tid ((e.slot tid).release handle).1).slot tid).enabled = true := by
    rw [slot_setSlot_self e tid _ (by omega), hrel]
    exact hen
  have hcur1 : ((e.setSlot tid ((e.slot tid).release handle).1).slot tid).curr_version =
      U64_MAX := by
    rw [slot_setSlot_self e tid _ (by omega), hrel]
  refine ⟨?_, ?_, ?_⟩
  · rw [acquire_eq_enabled e tid htid hen, tsAcquire_busy _ _ _ hav]
  · rw [acquire_eq_enabled e tid htid hen, tsAcquire_busy _ _ _ hav]
    exact hself
  · rw [release_eq e handle tid now (by omega), hhtid]
    by_cases hc1 : (e.setSlot tid ((e.slot tid).release handle).1).thread_waiting_threshold <
        ((e.slot tid).release handle).1.hazard_waiting_count
    · rw [if_pos hc1]
      set e1 := e.setSlot tid ((e.slot tid).release handle).1 with he1
      have hgmv := gmv_state e1 false now
      have hslotg : (e1.get_min_version false now).2.slot tid = e1.slot tid := by
        show ((e1.get_min_version false now).2.threads.getD tid ThreadStore.new) = _
        rw [hgmv.1]
        rfl
      have hlen2 : (e1.get_min_version false now).2.threads.length = MAX_THREAD_COUNT := by
        rw [hgmv.1]
        show (e.threads.set tid _).length = MAX_THREAD_COUNT
        rw [List.length_set, hlen]
      have hctrl := retireSelf_ctrl ((e1.get_min_version false now).2.slot tid)
        ((e1.get_min_version false now).1)
      apply hsucc
      · show (((e1.get_min_version false now).2.threads.set tid _).getD tid
            ThreadStore.new).enabled = true
        rw [listGetD_set_self _ _ _ _ (by omega)]
        rw [hctrl.1, hslotg]
        exact hen1
      · show (((e1.get_min_version false now).2.threads.set tid _).getD tid
            ThreadStore.new).curr_version = U64_MAX
        rw [listGetD_set_self _ _ _ _ (by omega)]
        rw [hctrl.2.2.2, hslotg]
        exact hcur1
    · rw [if_neg hc1]
      by_cases hc2 : (e.setSlot tid ((e.slot tid).release handle).1).thread_count *
          (e.setSlot tid ((e.slot tid).release handle).1).thread_waiting_threshold <
          (e.setSlot tid ((e.slot tid).release handle).1).hazard_waiting_count
      · rw [if_pos hc2]
        have hfs := flush_state (e.setSlot tid ((e.slot tid).release handle).1) tid now tid
          htid hen1
        apply hsucc
        · rw [hfs.2.1]
          exact hen1
        · rw [hfs.2.2.2.2]
          exact hcur1
      · rw [if_neg hc2]
        exact hsucc _ hen1 hcur1

/-- Witness for C6 on a concrete engine: thread 0 has acquired on the
fresh default engine; the second acquire is Busy with the state unchanged
and a release-then-acquire succeeds. -/
theorem C6_busy_then_success_witness :
    (scenE1.acquire 0).1 = Status.Busy
    ∧ (scenE1.acquire 0).2.1 = scenE1
    ∧ (((scenE1.release scenH 0 0).1).acquire 0).1 = Status.Success :=
  C6_busy_then_success scenE1 0 0 scenH (by decide) (by decide) (by decide) (by decide)
    (by decide) (by decide)

/-- Claim C10: a handle whose decoded tid is out of range makes
`HazardEpoch::release` a silent no-op: the engine is unchanged, nothing is
destroyed and nothing is logged. -/
theorem C10_release_out_of_range (e : HazardEpoch) (handle : VersionHandle) (ctid : Nat)
    (now : Int) (h : MAX_THREAD_COUNT ≤ handle.tid) :
    e.release handle ctid now = (e, [], []) :=
  release_oob e handle ctid now h

/-- Witness for C10 at a concrete engine and handle. -/
theorem C10_release_out_of_range_witness :
    engine0.release { tid := 99, high_bits := 0, seq := 0 } 0 0 = (engine0, [], []) :=
  C10_release_out_of_range engine0 { tid := 99, high_bits := 0, seq := 0 } 0 0 (by decide)


/-! Preservation of the accounting invariant (claim C8). -/

lemma filters_length (v : Nat) (l : List Node) :
    (l.filter (fun n => decide (v < n.version))).length +
      (l.filter (fun n => decide (n.version ≤ v))).length = l.length := by
  have h := hazardPartition_length v l []
  rw [hazardPartition_spec] at h
  simpa using h

lemma tsRelease_counts (ts : ThreadStore) (h : VersionHandle) :
    (ts.release h).1.hazard_waiting_count = ts.hazard_waiting_count
    ∧ (ts.release h).1.hazard_waiting_list = ts.hazard_waiting_list := by
  unfold ThreadStore.release
  split
  · exact ⟨rfl, rfl⟩
  · exact ⟨rfl, rfl⟩

lemma tsAcquire_counts (ts : ThreadStore) (v : Nat) (h0 : VersionHandle) :
    (ts.acquire v h0).2.1.hazard_waiting_count = ts.hazard_waiting_count
    ∧ (ts.acquire v h0).2.1.hazard_waiting_list = ts.hazard_waiting_list := by
  unfold ThreadStore.acquire
  split
  · exact ⟨rfl, rfl⟩
  · exact ⟨rfl, rfl⟩

lemma pendingOf_set (l : List ThreadStore) (i : Nat) (x : ThreadStore)
    (h : i < l.length) :
    pendingOf (l.set i x) + (l.getD i ThreadStore.new).hazard_waiting_list.length =
      pendingOf l + x.hazard_waiting_list.length :=
  listSum_map_set (fun ts => ts.hazard_waiting_list.length) l i x ThreadStore.new h

/-- The self scan keeps the slot's count consistent and splits the old
list length into the kept length plus the reclaim count. -/
lemma retireSelf_accounting (ts : ThreadStore) (v : Nat)
    (hc : ts.hazard_waiting_count = (ts.hazard_waiting_list.length : Int)) :
    (ts.retireSelf v).1.hazard_waiting_count =
      ((ts.retireSelf v).1.hazard_waiting_list.length : Int)
    ∧ ((ts.retireSelf v).1.hazard_waiting_list.length : Int) + (ts.retireSelf v).2.2 =
        (ts.hazard_waiting_list.length : Int) := by
  by_cases hl : ts.last_retire_version = v
  · have hr : ts.retireSelf v = (ts, [], 0) := by
      unfold ThreadStore.retireSelf
      rw [if_pos hl]
    rw [hr]
    dsimp only
    exact ⟨hc, by omega⟩
  · rw [retireSelf_eq ts v hl]
    dsimp only
    have hMR := filters_length v ts.hazard_waiting_list
    exact ⟨by omega, by omega⟩

/-- The donating scan keeps both slots' counts consistent and conserves
the total length up to the reclaim count. -/
lemma retire_accounting (ts recv : ThreadStore) (v : Nat)
    (hct : ts.hazard_waiting_count = (ts.hazard_waiting_list.length : Int))
    (hcr : recv.hazard_waiting_count = (recv.hazard_waiting_list.length : Int)) :
    (ts.retire v recv).1.hazard_waiting_count =
      ((ts.retire v recv).1.hazard_waiting_list.length : Int)
    ∧ (ts.retire v recv).2.1.hazard_waiting_count =
        ((ts.retire v recv).2.1.hazard_waiting_list.length : Int)
    ∧ ((ts.retire v recv).1.hazard_waiting_list.length : Int) +
        ((ts.retire v recv).2.1.hazard_waiting_list.length : Int) +
        (ts.retire v recv).2.2.2 =
        (ts.hazard_waiting_list.length : Int) +
          (recv.hazard_waiting_list.length : Int) := by
  by_cases hl : ts.last_retire_version = v
  · have hr : ts.retire v recv = (ts, recv, [], 0) := by
      unfold ThreadStore.retire
      rw [if_pos hl]
    rw [hr]
    dsimp only
    exact ⟨hct, hcr, by omega⟩
  · rw [retire_eq ts recv v hl]
    dsimp only
    have hMR := filters_length v ts.hazard_waiting_list
    refine ⟨?_, ?_, ?_⟩
    · simp only [List.length_nil]
      omega
    · simp only [List.length_append]
      omega
    · simp only [List.length_nil, List.length_append, List.length_reverse]
      omega

/-- Replacing a slot by one with a consistent count and the same list
length preserves the accounting invariant. -/
lemma WF_setSlot_preserve (e : HazardEpoch) (i : Nat) (x : ThreadStore)
    (hwf : WF e) (hi : i < MAX_THREAD_COUNT)
    (hc : x.hazard_waiting_count = (x.hazard_waiting_list.length : Int))
    (hf : x.hazard_waiting_list.length = (e.slot i).hazard_waiting_list.length) :
    WF (e.setSlot i x) := by
  obtain ⟨h1, h2, h3, h4⟩ := hwf
  have hgd : e.threads.getD i ThreadStore.new = e.slot i := rfl
  refine ⟨?_, h2, ?_, ?_⟩
  · show (e.threads.set i x).length = MAX_THREAD_COUNT
    rw [List.length_set]
    exact h1
  · intro ts hts
    rcases listMem_of_mem_set _ _ _ _ hts with hts | hts
    · exact h3 ts hts
    · rw [hts]
      exact hc
  · show e.hazard_waiting_count = (pendingOf (e.threads.set i x) : Int)
    have hsum := pendingOf_set e.threads i x (by omega)
    rw [hgd] at hsum
    rw [h4]
    omega

lemma WF_gts (e : HazardEpoch) (tn : Nat) (hwf : WF e) : WF (e.get_thread_store tn).2 := by
  unfold HazardEpoch.get_thread_store
  by_cases h : MAX_THREAD_COUNT ≤ tn
  · rw [if_pos h]
    exact hwf
  · rw [if_neg h]
    by_cases he : (e.slot tn).enabled
    · rw [if_pos he]
      exact hwf
    · rw [if_neg he]
      obtain ⟨h1, h2, h3, h4⟩ := hwf
      have hgd : e.threads.getD tn ThreadStore.new = e.slot tn := rfl
      have hS : (e.slot tn).hazard_waiting_count =
          ((e.slot tn).hazard_waiting_list.length : Int) := by
        have hx := h3 _ (listGetD_mem e.threads tn ThreadStore.new (by omega))
        rw [hgd] at hx
        exact hx
      refine ⟨?_, ?_, ?_, ?_⟩
      · show (e.threads.set tn _).length = MAX_THREAD_COUNT
        rw [List.length_set]
        exact h1
      · intro u hu
        rcases List.mem_cons.mp hu with hu | hu
        · omega
        · exact h2 u hu
      · intro ts hts
        rcases listMem_of_mem_set _ _ _ _ hts with hts | hts
        · exact h3 ts hts
        · rw [hts]
          show (e.slot tn).hazard_waiting_count =
            ((e.slot tn).hazard_waiting_list.length : Int)
          exact hS
      · show e.hazard_waiting_count =
          (pendingOf (e.threads.set tn { e.slot tn with enabled := true, tid := tn }) : Int)
        have hsum := pendingOf_set e.threads tn
          { e.slot tn with enabled := true, tid := tn } (by omega)
        have hfx : ({ e.slot tn with enabled := true, tid := tn } :
            ThreadStore).hazard_waiting_list.length =
            (e.threads.getD tn ThreadStore.new).hazard_waiting_list.length := rfl
        rw [h4]
        omega

lemma WF_gmv (e : HazardEpoch) (f : Bool) (now : Int) (hwf : WF e) :
    WF (e.get_min_version f now).2 := by
  unfold HazardEpoch.get_min_version
  split
  · exact hwf
  · exact hwf

/-- A local scan of slot `tid` with the aggregate decreased by the reclaim
count preserves the accounting invariant. -/
lemma WF_scanSelf (e : HazardEpoch) (tid : Nat) (minv : Nat)
    (hwf : WF e) (htid : tid < MAX_THREAD_COUNT) :
    WF { e.setSlot tid ((e.slot tid).retireSelf minv).1 with
          hazard_waiting_count :=
            e.hazard_waiting_count - ((e.slot tid).retireSelf minv).2.2 } := by
  obtain ⟨h1, h2, h3, h4⟩ := hwf
  have hgd : e.threads.getD tid ThreadStore.new = e.slot tid := rfl
  have hS : (e.slot tid).hazard_waiting_count =
      ((e.slot tid).hazard_waiting_list.length : Int) := by
    have hx := h3 _ (listGetD_mem e.threads tid ThreadStore.new (by omega))
    rw [hgd] at hx
    exact hx
  have hacc := retireSelf_accounting (e.slot tid) minv hS
  refine ⟨?_, h2, ?_, ?_⟩
  · show (e.threads.set tid _).length = MAX_THREAD_COUNT
    rw [List.length_set]
    exact h1
  · intro ts hts
    rcases listMem_of_mem_set _ _ _ _ hts with hts | hts
    · exact h3 ts hts
    · rw [hts]
      exact hacc.1
  · show e.hazard_waiting_count - ((e.slot tid).retireSelf minv).2.2 =
      (pendingOf (e.threads.set tid ((e.slot tid).retireSelf minv).1) : Int)
    have hsum := pendingOf_set e.threads tid ((e.slot tid).retireSelf minv).1 (by omega)
    rw [hgd] at hsum
    rw [h4]
    omega

/-- One flush step (scan slot `t`, donate to slot `tid`, subtract the
reclaim count from the aggregate) preserves the accounting invariant. -/
lemma WF_retire_step (e : HazardEpoch) (t tid : Nat) (minv : Nat)
    (hwf : WF e) (ht : t < MAX_THREAD_COUNT) (htid : tid < MAX_THREAD_COUNT)
    (hne : ¬ t = tid) :
    WF { (e.setSlot t ((e.slot t).retire minv (e.slot tid)).1).setSlot tid
          ((e.slot t).retire minv (e.slot tid)).2.1 with
          hazard_waiting_count :=
            e.hazard_waiting_count - ((e.slot t).retire minv (e.slot tid)).2.2.2 } := by
  obtain ⟨h1, h2, h3, h4⟩ := hwf
  have hgdt : e.threads.getD t ThreadStore.new = e.slot t := rfl
  have hgdtid : e.threads.getD tid ThreadStore.new = e.slot tid := rfl
  have hSt : (e.slot t).hazard_waiting_count =
      ((e.slot t).hazard_waiting_list.length : Int) := by
    have hx := h3 _ (listGetD_mem e.threads t ThreadStore.new (by omega))
    rw [hgdt] at hx
    exact hx
  have hStid : (e.slot tid).hazard_waiting_count =
      ((e.slot tid).hazard_waiting_list.length : Int) := by
    have hx := h3 _ (listGetD_mem e.threads tid ThreadStore.new (by omega))
    rw [hgdtid] at hx
    exact hx
  have hacc := retire_accounting (e.slot t) (e.slot tid) minv hSt hStid
  refine ⟨?_, h2, ?_, ?_⟩
  · show ((e.threads.set t _).set tid _).length = MAX_THREAD_COUNT
    rw [List.length_set, List.length_set]
    exact h1
  · intro ts hts
    rcases listMem_of_mem_set _ _ _ _ hts with hts | hts
    · rcases listMem_of_mem_set _ _ _ _ hts with hts | hts
      · exact h3 ts hts
      · rw [hts]
        exact hacc.1
    · rw [hts]
      exact hacc.2.1
  · show e.hazard_waiting_count - ((e.slot t).retire minv (e.slot tid)).2.2.2 =
      (pendingOf ((e.threads.set t ((e.slot t).retire minv (e.slot tid)).1).set tid
        ((e.slot t).retire minv (e.slot tid)).2.1) : Int)
    have hsum1 := pendingOf_set e.threads t ((e.slot t).retire minv (e.slot tid)).1
      (by omega)
    have hsum2 := pendingOf_set (e.threads.set t ((e.slot t).retire minv (e.slot tid)).1)
      tid ((e.slot t).retire minv (e.slot tid)).2.1 (by rw [List.length_set]; omega)
    have hgd2 : (e.threads.set t ((e.slot t).retire minv (e.slot tid)).1).getD tid
        ThreadStore.new = e.threads.getD tid ThreadStore.new :=
      listGetD_set_ne _ _ _ _ _ (fun hc => hne hc.symm)
    rw [hgdt] at hsum1
    rw [hgd2, hgdtid] at hsum2
    rw [h4]
    omega

lemma WF_flushOthers (tid minv : Nat) (htid : tid < MAX_THREAD_COUNT) (rest : List Nat) :
    ∀ (e : HazardEpoch) (destroyed : List Node), WF e →
      (∀ u ∈ rest, u < MAX_THREAD_COUNT) →
      WF (flushOthers tid minv rest (e, destroyed)).1 := by
  induction rest with
  | nil => exact fun e d hwf _ => hwf
  | cons t rest ih =>
    intro e d hwf hb
    by_cases ht : t = tid
    · subst ht
      rw [flushOthers_cons_eq]
      exact ih e d hwf (fun u hu => hb u (List.mem_cons_of_mem _ hu))
    · rw [flushOthers_cons_ne tid minv t rest e d ht]
      refine ih _ _ ?_ (fun u hu => hb u (List.mem_cons_of_mem _ hu))
      exact WF_retire_step e t tid minv ⟨hwf.1, hwf.2.1, hwf.2.2.1, hwf.2.2.2⟩
        (hb t (List.mem_cons_self _ _)) htid ht

lemma WF_flush (e : HazardEpoch) (tid : Nat) (now : Int) (hwf : WF e) :
    WF (e.retire tid now).1 := by
  by_cases htid : MAX_THREAD_COUNT ≤ tid
  · rw [flush_overflow e tid now htid]
    exact hwf
  · rw [flush_eq_general e tid now (by omega)]
    have hwf1 : WF (e.get_thread_store tid).2 := WF_gts e tid hwf
    refine WF_flushOthers tid _ (by omega) _ _ _ ?_ hwf1.2.1
    exact WF_scanSelf _ tid _ hwf1 (by omega)

lemma WF_release (e : HazardEpoch) (h : VersionHandle) (ctid : Nat) (now : Int)
    (hwf : WF e) : WF (e.release h ctid now).1 := by
  by_cases hh : h.tid < MAX_THREAD_COUNT
  · rw [release_eq e h ctid now hh]
    have hcounts := tsRelease_counts (e.slot h.tid) h
    have hwf1 : WF (e.setSlot h.tid ((e.slot h.tid).release h).1) := by
      refine WF_setSlot_preserve e h.tid _ hwf hh ?_ ?_
      · rw [hcounts.1, hcounts.2]
        have hx := hwf.2.2.1 _ (listGetD_mem e.threads h.tid ThreadStore.new
          (by rw [hwf.1]; omega))
        exact hx
      · rw [hcounts.2]
    by_cases hc1 : (e.setSlot h.tid
        ((e.slot h.tid).release h).1).thread_waiting_threshold <
        ((e.slot h.tid).release h).1.hazard_waiting_count
    · rw [if_pos hc1]
      exact WF_scanSelf _ h.tid _
        (WF_gmv (e.setSlot h.tid ((e.slot h.tid).release h).1) false now hwf1) (by omega)
    · rw [if_neg hc1]
      by_cases hc2 : (e.setSlot h.tid ((e.slot h.tid).release h).1).thread_count *
          (e.setSlot h.tid ((e.slot h.tid).release h).1).thread_waiting_threshold <
          (e.setSlot h.tid ((e.slot h.tid).release h).1).hazard_waiting_count
      · rw [if_pos hc2]
        exact WF_flush _ ctid now hwf1
      · rw [if_neg hc2]
        exact hwf1
  · rw [release_oob e h ctid now (by omega)]
    exact hwf

lemma acquire_overflow (e : HazardEpoch) (tid : Nat) (htid : MAX_THREAD_COUNT ≤ tid) :
    e.acquire tid =
      (Status.ThreadNumOverflow, e, { tid := 0, high_bits := 0, seq := 0 }) := by
  unfold HazardEpoch.acquire HazardEpoch.get_thread_store
  rw [if_pos htid]
  rfl

lemma acquire_eq_general (e : HazardEpoch) (tid : Nat) (htid : tid < MAX_THREAD_COUNT) :
    e.acquire tid =
      ((((e.get_thread_store tid).2.slot tid).acquire (e.get_thread_store tid).2.version
          { tid := 0, high_bits := 0, seq := 0 }).1,
        (e.get_thread_store tid).2.setSlot tid
          (((e.get_thread_store tid).2.slot tid).acquire (e.get_thread_store tid).2.version
            { tid := 0, high_bits := 0, seq := 0 }).2.1,
        (((e.get_thread_store tid).2.slot tid).acquire (e.get_thread_store tid).2.version
          { tid := 0, high_bits := 0, seq := 0 }).2.2) := by
  have h1 : (e.get_thread_store tid).1 = Status.Success := by
    rw [gts_status]
    exact if_neg (by omega)
  have hgts : e.get_thread_store tid = (Status.Success, (e.get_thread_store tid).2) := by
    conv_lhs => rw [← Prod.mk.eta (p := e.get_thread_store tid)]
    rw [h1]
  unfold HazardEpoch.acquire
  rw [hgts]
  rfl

lemma WF_acquire (e : HazardEpoch) (tid : Nat) (hwf : WF e) : WF (e.acquire tid).2.1 := by
  by_cases htid : MAX_THREAD_COUNT ≤ tid
  · rw [acquire_overflow e tid htid]
    exact hwf
  · rw [acquire_eq_general e tid (by omega)]
    have hwf1 := WF_gts e tid hwf
    have hcnt := tsAcquire_counts ((e.get_thread_store tid).2.slot tid)
      (e.get_thread_store tid).2.version { tid := 0, high_bits := 0, seq := 0 }
    refine WF_setSlot_preserve _ tid _ hwf1 (by omega) ?_ ?_
    · rw [hcnt.1, hcnt.2]
      exact hwf1.2.2.1 _ (listGetD_mem _ tid ThreadStore.new (by rw [hwf1.1]; omega))
    · rw [hcnt.2]

lemma WF_add_node (e : HazardEpoch) (tid : Nat) (node : Option Node) (hwf : WF e) :
    WF (e.add_node tid node).2 := by
  match node with
  | none => exact hwf
  | some nd =>
    by_cases htid : MAX_THREAD_COUNT ≤ tid
    · have hov : e.add_node tid (some nd) = (Status.ThreadNumOverflow, e) := by
        unfold HazardEpoch.add_node HazardEpoch.get_thread_store
        rw [if_pos htid]
        rfl
      rw [hov]
      exact hwf
    · rw [add_node_eq e tid nd (by omega)]
      have hwf1 := WF_gts e tid hwf
      obtain ⟨h1, h2, h3, h4⟩ := hwf1
      have hgd : (e.get_thread_store tid).2.threads.getD tid ThreadStore.new =
          (e.get_thread_store tid).2.slot tid := rfl
      have hS : ((e.get_thread_store tid).2.slot tid).hazard_waiting_count =
          (((e.get_thread_store tid).2.slot tid).hazard_waiting_list.length : Int) := by
        have hx := h3 _ (listGetD_mem (e.get_thread_store tid).2.threads tid
          ThreadStore.new (by omega))
        rw [hgd] at hx
        exact hx
      refine ⟨?_, h2, ?_, ?_⟩
      · show ((e.get_thread_store tid).2.threads.set tid _).length = MAX_THREAD_COUNT
        rw [List.length_set]
        exact h1
      · intro ts hts
        rcases listMem_of_mem_set _ _ _ _ hts with hts | hts
        · exact h3 ts hts
        · rw [hts, inner_add_nodes_eq]
          show ((e.get_thread_store tid).2.slot tid).hazard_waiting_count + _ = _
          simp only [List.length_append, List.length_cons, List.length_nil]
          omega
      · show (e.get_thread_store tid).2.hazard_waiting_count + 1 =
          (pendingOf ((e.get_thread_store tid).2.threads.set tid
            (((e.get_thread_store tid).2.slot tid).inner_add_nodes
              [{ nd with version := ((e.get_thread_store tid).2.version + 1) % U64_MOD }]))
            : Int)
        have hsum := pendingOf_set (e.get_thread_store tid).2.threads tid
          (((e.get_thread_store tid).2.slot tid).inner_add_nodes
            [{ nd with version := ((e.get_thread_store tid).2.version + 1) % U64_MOD }])
          (by omega)
        have hfx : (((e.get_thread_store tid).2.slot tid).inner_add_nodes
            [{ nd with version :=
              ((e.get_thread_store tid).2.version + 1) % U64_MOD }]).hazard_waiting_list.length =
            ((e.get_thread_store tid).2.slot tid).hazard_waiting_list.length + 1 := by
          rw [inner_add_nodes_eq]
          simp
        rw [hgd] at hsum
        rw [h4]
        omega

lemma sum_counts_eq_pending (l : List ThreadStore)
    (h : ∀ ts ∈ l, ts.hazard_waiting_count = (ts.hazard_waiting_list.length : Int)) :
    (l.map fun ts => ts.hazard_waiting_count).sum = (pendingOf l : Int) := by
  induction l with
  | nil => simp [pendingOf]
  | cons a as ih =>
    have ha := h a (List.mem_cons_self _ _)
    have hrec := ih (fun ts hts => h ts (List.mem_cons_of_mem _ hts))
    simp only [List.map_cons, List.sum_cons, pendingOf] at ha hrec ⊢
    omega

/-- Claim C8: on a well-formed live engine, each complete operation
(acquire, release, add_node, flush) preserves the accounting invariant:
pending_total equals the sum over all slots of their per-slot waiting
counts, each of which equals the length of that slot's retired list, so
pending_total is the number of nodes retired but not yet destroyed. -/
theorem C8_pending_total_accounting :
    (∀ (e : HazardEpoch) (tid : Nat), WF e → WF (e.acquire tid).2.1)
    ∧ (∀ (e : HazardEpoch) (handle : VersionHandle) (ctid : Nat) (now : Int),
        WF e → WF (e.release handle ctid now).1)
    ∧ (∀ (e : HazardEpoch) (tid : Nat) (node : Option Node),
        WF e → WF (e.add_node tid node).2)
    ∧ (∀ (e : HazardEpoch) (tid : Nat) (now : Int), WF e → WF (e.retire tid now).1)
    ∧ (∀ e : HazardEpoch, WF e →
        e.hazard_waiting_count = (e.threads.map fun ts => ts.hazard_waiting_count).sum) :=
  ⟨fun e tid hwf => WF_acquire e tid hwf,
    fun e handle ctid now hwf => WF_release e handle ctid now hwf,
    fun e tid node hwf => WF_add_node e tid node hwf,
    fun e tid now hwf => WF_flush e tid now hwf,
    fun e hwf => by rw [hwf.2.2.2, sum_counts_eq_pending e.threads hwf.2.2.1]⟩

/-- Witness for C8: the invariant holds on the fresh default engine and is
preserved by a retire there. -/
theorem C8_pending_total_accounting_witness :
    WF engine0 ∧ WF ((engine0.add_node 0 (some ndC2)).2) :=
  ⟨by unfold WF pendingOf; decide,
    C8_pending_total_accounting.2.2.1 engine0 0 (some ndC2)
      (by unfold WF pendingOf; decide)⟩
